import Mathlib

set_option autoImplicit false

namespace CSPSolver

/-! # Shallow embedding of `Project-2/submission.py`

The repository implements a backtracking CSP solver (`BacktrackingSearch`)
with an optional most-constrained-variable heuristic and an optional AC-3
propagation step.  The `CSP` container class is imported from `csp.py`,
which is not part of the repository snapshot; its query interface
(ordered variable list, per-variable domains, unary factor table or explicit
absence, per-pair binary factor tables, neighbor query) is modelled from the
specification's §6.  Everything else below is translated line by line from
`submission.py`.

Python effects are made explicit: the mutable engine fields become the
`SState` record threaded through every function, Python exceptions
(`NameError` from an unbound loop variable, `KeyError` from a missing dict
key) become the `PyErr` error monad, and the two loops whose termination is
not structural (the recursion of `backtrack` and the worklist loop of
`arc_consistency_check`) take an explicit fuel parameter, running out of
fuel being reported as the distinguished error `PyErr.outOfFuel`. -/

/-- Variables are identified by natural numbers.  The repository uses
strings, but only equality and the declaration order are ever used, so any
identifier type with decidable equality is a faithful model. -/
abbrev Var := Nat

/-- Domain values.  The repository's sample client uses integers. -/
abbrev Val := Int

/-- A (possibly partial) assignment, modelling a Python dict in insertion
order: an association list in which a key occurs at most once. -/
abbrev Assign := List (Var × Val)

/-- Dict lookup `a[v]`, `none` when the key is absent. -/
def lookupA (a : Assign) (v : Var) : Option Val :=
  (a.find? (fun p => p.1 == v)).map Prod.snd

/-- Dict membership test `v in a`. -/
def memA (a : Assign) (v : Var) : Bool :=
  (a.find? (fun p => p.1 == v)).isSome

/-- Dict write `a[v] = x`: overwrite in place when the key is present
(keeping its position, as Python dicts do), append otherwise. -/
def setA (a : Assign) (v : Var) (x : Val) : Assign :=
  if memA a v then a.map (fun p => if p.1 == v then (v, x) else p)
  else a ++ [(v, x)]

/-- Dict deletion `del a[v]`. -/
def delA (a : Assign) (v : Var) : Assign :=
  a.filter (fun p => p.1 != v)

/-- The query interface of the external `CSP` container (modelled from the
specification, §6: the class itself lives in `csp.py`, outside the
repository snapshot).  `unary_factors v = none` models the absence of a
unary table for `v` (Python `None`); `binary_factors v` is the dict mapping
each neighbor of `v` to the binary factor table for the ordered pair,
kept as an association list to preserve the dict's key order. -/
structure CSP where
  vars : List Var
  values : Var → List Val
  unary_factors : Var → Option (Val → Nat)
  binary_factors : Var → List (Var × (Val → Val → Nat))

/-- Embeds `csp.vars_num`: the number of declared variables. -/
def CSP.vars_num (csp : CSP) : Nat := csp.vars.length

/-- Embeds `csp.get_neighbor_vars(v)`: the keys of `binary_factors[v]`. -/
def CSP.get_neighbor_vars (csp : CSP) (v : Var) : List Var :=
  (csp.binary_factors v).map Prod.fst

/-- Embeds the dict lookup `csp.binary_factors[v1][v2]` of a factor table.  The
solver only performs this lookup with `v2` a key of `binary_factors[v1]`
(it iterates the neighbor list), so the `none` default is never reached
there. -/
def CSP.bf (csp : CSP) (v1 v2 : Var) : Val → Val → Nat :=
  match (csp.binary_factors v1).find? (fun p => p.1 == v2) with
  | some p => p.2
  | none => fun _ _ => 0

/-- Python exceptions that can escape the embedded code, plus the
distinguished fuel-exhaustion marker of the embedding. -/
inductive PyErr where
  | nameError
  | keyError
  | outOfFuel
deriving DecidableEq, Repr

/-- The mutable fields of a `BacktrackingSearch` object.  `csp_values`
models the domain sequences owned by the CSP object the engine holds
(`self.csp.values`): the engine reads them once, in `solve`, and the claims
about non-mutation of the CSP are stated as preservation of this field.
`record_ops` is ghost instrumentation: the value of the operation counter
at each append to `all_assignments`; it influences nothing. -/
structure SState where
  num_assignments : Nat
  num_operations : Nat
  first_assignment_num_operations : Nat
  all_assignments : List Assign
  domains : Var → List Val
  csp_values : Var → List Val
  record_ops : List Nat

/-- Pointwise update of the working-domains dict: `domains[v] = xs`. -/
def updD (d : Var → List Val) (v : Var) (xs : List Val) : Var → List Val :=
  fun w => if w = v then xs else d w

/-- The binary part of `check_factors` (`submission.py` lines 92-96):
iterate the items of `binary_factors[var]`, skip unassigned neighbors,
and fail on a zero weight. -/
def check_binary (a : Assign) (val : Val) : List (Var × (Val → Val → Nat)) → Bool
  | [] => true
  | (var2, factor) :: rest =>
    match lookupA a var2 with
    | none => check_binary a val rest
    | some y => if factor val y == 0 then false else check_binary a val rest

/-- Embeds `check_factors(assignment, var, val)` (`submission.py` lines 67-97).
The Python guard `if self.csp.unary_factors[var]:` tests truthiness of the
table, i.e. it is not `None`; the assertion `var not in assignment` is a
documented precondition, satisfied at every call site of the solver. -/
def check_factors (csp : CSP) (a : Assign) (var : Var) (val : Val) : Bool :=
  match csp.unary_factors var with
  | some uf =>
    if uf val == 0 then false else check_binary a val (csp.binary_factors var)
  | none => check_binary a val (csp.binary_factors var)

/-- The innermost loop of `arc_consistency_check` (lines 237-240): does any
value of the dequeued variable's current domain support `nv`? -/
def hasSupport (f : Val → Val → Nat) (currentDom : List Val) (nv : Val) : Bool :=
  currentDom.any (fun cv => f cv nv != 0)

/-- The unary test of `arc_consistency_check` (lines 242-246): a value
passes when the neighbor has no unary table, or its unary weight is
nonzero. -/
def unaryOKb (csp : CSP) (v : Var) (x : Val) : Bool :=
  match csp.unary_factors v with
  | some uf => uf x != 0
  | none => true

/-- The per-neighbor value loop of `arc_consistency_check` (lines 233-255),
carried arguments being the remaining snapshot of the neighbor's domain
(Python iterates the list object fetched at loop entry), `neighbor_domain`,
`domain_change`, the working domains and the worklist.  Note the faithful
quirks: once `domain_change` is true, every later iteration rewrites
`domains[neighbor_var]` with the partial filtered list and appends the
neighbor to the worklist again, and the support test rereads the dequeued
variable's current domain each time. -/
def reviseVals (csp : CSP) (current_var neighbor_var : Var) :
    List Val → List Val → Bool → (Var → List Val) → List Var →
    ((Var → List Val) × List Var)
  | [], _, _, doms, q => (doms, q)
  | nv :: rest, nd, dc, doms, q =>
    let binary_change := hasSupport (csp.bf current_var neighbor_var) (doms current_var) nv
    let uniary_change := unaryOKb csp neighbor_var nv
    let nd1 := if uniary_change && binary_change then nd ++ [nv] else nd
    let dc1 := if uniary_change && binary_change then dc else true
    if dc1 then
      reviseVals csp current_var neighbor_var rest nd1 dc1
        (updD doms neighbor_var nd1) (q ++ [neighbor_var])
    else
      reviseVals csp current_var neighbor_var rest nd1 dc1 doms q

/-- The neighbor loop of one worklist iteration (lines 230-255).  Besides
domains and worklist it threads the last value taken by the Python loop
variable `neighbor_var` (function-scoped, hence `Option Var` across
iterations: `none` while it has never been bound) and the ghost trace of
`(neighbor, finalized domain)` pairs, one per neighbor processed. -/
def neighborsLoop (csp : CSP) (current_var : Var) :
    List Var → (Var → List Val) → List Var → Option Var → List (Var × List Val) →
    ((Var → List Val) × List Var × Option Var × List (Var × List Val))
  | [], doms, q, lastNb, tr => (doms, q, lastNb, tr)
  | nb :: rest, doms, q, _lastNb, tr =>
    let p := reviseVals csp current_var nb (doms nb) [] false doms q
    neighborsLoop csp current_var rest p.1 p.2 (some nb) (tr ++ [(nb, p.1 nb)])

/-- Result of `arc_consistency_check`: the returned boolean, the working
domains at return, and the ghost trace of finalized neighbor domains. -/
structure AcResult where
  succeed : Bool
  domains : Var → List Val
  trace : List (Var × List Val)

/-- The worklist loop of `arc_consistency_check` (lines 228-257).  After
each neighbor loop, line 256 reads `self.domains[neighbor_var]`: when the
loop variable has never been bound in this call this raises `NameError`;
otherwise it tests the domain of whatever neighbor was bound last (possibly
in an earlier worklist iteration). -/
def acLoop (csp : CSP) :
    Nat → List Var → (Var → List Val) → Option Var → List (Var × List Val) →
    Except PyErr AcResult
  | 0, _, _, _, _ => .error .outOfFuel
  | _ + 1, [], doms, _, tr => .ok ⟨true, doms, tr⟩
  | n + 1, cv :: qrest, doms, lastNb, tr =>
    match neighborsLoop csp cv (csp.get_neighbor_vars cv) doms qrest lastNb tr with
    | (doms1, q1, lastNb1, tr1) =>
      match lastNb1 with
      | none => .error .nameError
      | some nb =>
        if doms1 nb = [] then .ok ⟨false, doms1, tr1⟩
        else acLoop csp n q1 doms1 lastNb1 tr1

/-- Embeds `arc_consistency_check(var)` (`submission.py` lines 206-258), acting on
the given working domains. -/
def arc_consistency_check (csp : CSP) (fuel : Nat) (var : Var)
    (doms : Var → List Val) : Except PyErr AcResult :=
  acLoop csp fuel [var] doms none []

/-- Embeds line 200, the count of values `x` of `self.domains[var]` with
`self.check_factors(assignment, var, x)` true. -/
def numConsistent (csp : CSP) (a : Assign) (doms : Var → List Val) (v : Var) : Nat :=
  (doms v).countP (fun x => check_factors csp a v x)

/-- The MCV loop of `get_unassigned_variable` (lines 195-204), carrying
`min_num_consistent_val` (with `none` modelling the plus-infinity starting
value, larger than every count) and `var_mcv`. -/
def mcvLoop (csp : CSP) (a : Assign) (doms : Var → List Val) :
    List Var → Option Nat → Var → Var
  | [], _, acc => acc
  | v :: rest, minv, acc =>
    if memA a v then mcvLoop csp a doms rest minv acc
    else
      let c := numConsistent csp a doms v
      match minv with
      | none => mcvLoop csp a doms rest (some c) v
      | some m =>
        if c < m then mcvLoop csp a doms rest (some c) v
        else mcvLoop csp a doms rest minv acc

/-- Embeds `get_unassigned_variable(assignment)` (lines 171-204).  In static mode
Python falls off the loop and returns `None` when every variable is
assigned, modelled by `none`; in MCV mode `self.csp.vars[0]` raises
`IndexError` on an empty variable list, also modelled by `none` (either way
the caller aborts: see `backtrack`). -/
def get_unassigned_variable (csp : CSP) (mcv : Bool) (a : Assign)
    (doms : Var → List Val) : Option Var :=
  if mcv then
    match csp.vars with
    | [] => none
    | v0 :: _ => some (mcvLoop csp a doms csp.vars none v0)
  else
    csp.vars.find? (fun v => !(memA a v))

/-- The loop of lines 136-137 of `backtrack`, over a list of variables:
`new_assignment[var] = assignment[var]` for each.  `none` models the
`KeyError` raised when a variable is missing from the assignment. -/
def recordLoop (a : Assign) : List Var -> Option Assign
  | [] => some []
  | v :: vs =>
    match lookupA a v, recordLoop a vs with
    | some x, some rest => some ((v, x) :: rest)
    | _, _ => none

/-- Lines 135-138 of `backtrack`: rebuild the complete assignment in
declaration order. -/
def record (csp : CSP) (a : Assign) : Option Assign := recordLoop a csp.vars

/-- The value loop of the `ac3 == False` branch of `backtrack`
(lines 146-153): test, bind, recurse, unbind.  The recursive call is passed
in as `bt`. -/
def runNoAc (csp : CSP) (bt : Assign → SState → Except PyErr SState) (var : Var) :
    List Val → Assign → SState → Except PyErr SState
  | [], _, st => .ok st
  | val :: rest, a, st =>
    if check_factors csp a var val then
      let a1 := setA a var val
      match bt a1 st with
      | .error e => .error e
      | .ok st1 => runNoAc csp bt var rest (delA a1 var) st1
    else runNoAc csp bt var rest a st

/-- The value loop of the `ac3 == True` branch of `backtrack`
(lines 154-169): test, bind, snapshot the domains (`copy.deepcopy`),
collapse the variable's domain to `[val]`, propagate, recurse only on
success, then restore the snapshot and unbind.  A Python exception
propagates out before the restore, as in the source. -/
def runAc (csp : CSP) (bt : Assign → SState → Except PyErr SState)
    (acFuel : Nat) (var : Var) :
    List Val → Assign → SState → Except PyErr SState
  | [], _, st => .ok st
  | val :: rest, a, st =>
    if check_factors csp a var val then
      let a1 := setA a var val
      let localCopy := st.domains
      let st1 : SState := { st with domains := updD st.domains var [val] }
      match arc_consistency_check csp acFuel var st1.domains with
      | .error e => .error e
      | .ok res =>
        let st2 : SState := { st1 with domains := res.domains }
        match (if res.succeed then bt a1 st2 else .ok st2) with
        | .error e => .error e
        | .ok st3 =>
          runAc csp bt acFuel var rest (delA a1 var) { st3 with domains := localCopy }
    else runAc csp bt acFuel var rest a st

/-- Embeds `backtrack(assignment)` (`submission.py` lines 120-169), with explicit
fuel for the recursion; each recursive call also hands the remaining fuel
to `arc_consistency_check`. -/
def backtrack (csp : CSP) (mcv ac3 : Bool) :
    Nat → Assign → SState → Except PyErr SState
  | 0, _, _ => .error .outOfFuel
  | fuel + 1, a, st0 =>
    let st : SState := { st0 with num_operations := st0.num_operations + 1 }
    if a.length = csp.vars_num then
      match record csp a with
      | none => .error .keyError
      | some sol =>
        let st1 : SState := { st with
          num_assignments := st.num_assignments + 1,
          all_assignments := st.all_assignments ++ [sol],
          record_ops := st.record_ops ++ [st.num_operations] }
        if st1.first_assignment_num_operations = 0 then
          .ok { st1 with first_assignment_num_operations := st1.num_operations }
        else .ok st1
    else
      match get_unassigned_variable csp mcv a st.domains with
      | none => .error .keyError
      | some var =>
        let ordered_values := st.domains var
        if ac3 then runAc csp (backtrack csp mcv ac3 fuel) fuel var ordered_values a st
        else runNoAc csp (backtrack csp mcv ac3 fuel) var ordered_values a st

/-- The engine state right after lines 112-117 of `solve`: statistics
reset, working domains initialized as copies of the CSP's declared
domains. -/
def initState (csp : CSP) : SState :=
  { num_assignments := 0
    num_operations := 0
    first_assignment_num_operations := 0
    all_assignments := []
    domains := fun v => csp.values v
    csp_values := csp.values
    record_ops := [] }

/-- Embeds `solve(csp, mcv, ac3)` (`submission.py` lines 99-118). -/
def solve (csp : CSP) (mcv ac3 : Bool) (fuel : Nat) : Except PyErr SState :=
  backtrack csp mcv ac3 fuel [] (initState csp)

/-! ## Lemmas about the dict model -/

theorem memA_eq_isSome_lookupA (a : Assign) (v : Var) :
    memA a v = (lookupA a v).isSome := by
  simp [memA, lookupA]

theorem memA_false_iff (a : Assign) (v : Var) :
    memA a v = false ↔ ∀ p ∈ a, p.1 ≠ v := by
  simp only [memA, ← Bool.not_eq_true, Option.not_isSome_iff_eq_none,
    List.find?_eq_none, beq_iff_eq]

theorem lookupA_eq_none_iff (a : Assign) (v : Var) :
    lookupA a v = none ↔ ∀ p ∈ a, p.1 ≠ v := by
  simp [lookupA, List.find?_eq_none]

theorem lookupA_mem {a : Assign} {v : Var} {y : Val} (h : lookupA a v = some y) :
    (v, y) ∈ a := by
  simp only [lookupA, Option.map_eq_some'] at h
  obtain ⟨p, hp, hy⟩ := h
  have hv := List.find?_some hp
  have hmem := List.mem_of_find?_eq_some hp
  simp only [beq_iff_eq] at hv
  have : p = (v, y) := by
    cases p with
    | mk p1 p2 => simp at hv hy; simp [hv, hy]
  rw [this] at hmem
  exact hmem

theorem memA_true_of_lookupA {a : Assign} {v : Var} {y : Val}
    (h : lookupA a v = some y) : memA a v = true := by
  rw [memA_eq_isSome_lookupA, h]
  rfl

theorem setA_of_not_mem {a : Assign} {v : Var} (x : Val) (h : memA a v = false) :
    setA a v x = a ++ [(v, x)] := by
  simp [setA, h]

theorem delA_setA {a : Assign} {v : Var} (x : Val) (h : memA a v = false) :
    delA (setA a v x) v = a := by
  rw [setA_of_not_mem x h, delA, List.filter_append]
  have h1 : a.filter (fun p => p.1 != v) = a := by
    rw [List.filter_eq_self]
    intro p hp
    simpa using (memA_false_iff a v).mp h p hp
  have h2 : List.filter (fun p => p.1 != v) [(v, x)] = [] := by
    simp
  rw [h1, h2, List.append_nil]

theorem length_setA {a : Assign} {v : Var} (x : Val) (h : memA a v = false) :
    (setA a v x).length = a.length + 1 := by
  rw [setA_of_not_mem x h]
  simp

theorem lookupA_setA {a : Assign} {v : Var} (x : Val) (h : memA a v = false)
    (w : Var) :
    lookupA (setA a v x) w = if w = v then some x else lookupA a w := by
  rw [setA_of_not_mem x h]
  rw [lookupA, List.find?_append]
  by_cases hw : w = v
  · subst hw
    have : lookupA a w = none := by
      rw [lookupA_eq_none_iff]
      exact (memA_false_iff a w).mp h
    rw [lookupA] at this
    rcases hfind : a.find? (fun p => p.1 == w) with _ | p
    · simp [hfind]
    · rw [hfind] at this
      simp at this
  · have : List.find? (fun p => p.1 == w) [(v, x)] = none := by
      simp
      exact fun hvw => (hw hvw.symm).elim
    rw [this]
    rcases hfind : a.find? (fun p => p.1 == w) with _ | p <;>
      simp [hfind, lookupA, hw]

theorem memA_setA {a : Assign} {v : Var} (x : Val) (h : memA a v = false)
    (w : Var) :
    memA (setA a v x) w = if w = v then true else memA a w := by
  rw [memA_eq_isSome_lookupA, lookupA_setA x h w]
  by_cases hw : w = v <;> simp [hw, memA_eq_isSome_lookupA]

theorem keys_setA {a : Assign} {v : Var} (x : Val) (h : memA a v = false) :
    (setA a v x).map Prod.fst = a.map Prod.fst ++ [v] := by
  rw [setA_of_not_mem x h]
  simp

/-! ## Characterization of the consistency checker -/

theorem check_binary_iff (a : Assign) (val : Val)
    (l : List (Var × (Val → Val → Nat))) :
    check_binary a val l = true ↔
      ∀ p ∈ l, ∀ y, lookupA a p.1 = some y → p.2 val y ≠ 0 := by
  induction l with
  | nil => simp [check_binary]
  | cons p rest ih =>
    obtain ⟨var2, factor⟩ := p
    rcases hl : lookupA a var2 with _ | y
    · simp [check_binary, hl, List.forall_mem_cons, ih]
    · by_cases hz : factor val y = 0 <;>
        simp [check_binary, hl, hz, List.forall_mem_cons, ih]

theorem check_factors_iff (csp : CSP) (a : Assign) (var : Var) (val : Val) :
    check_factors csp a var val = true ↔
      (∀ uf, csp.unary_factors var = some uf → uf val ≠ 0) ∧
      (∀ p ∈ csp.binary_factors var, ∀ y,
        lookupA a p.1 = some y → p.2 val y ≠ 0) := by
  rcases hu : csp.unary_factors var with _ | uf
  · simp [check_factors, hu, check_binary_iff]
  · by_cases hz : uf val = 0 <;>
      simp [check_factors, hu, hz, check_binary_iff]

/-! ## Concrete instances used by witnesses and counterexamples -/

/-- A binary factor table allowing exactly the pairs of distinct values. -/
def neqFactor : Val → Val → Nat := fun x y => if x = y then 0 else 1

/-- An everywhere-zero binary factor table. -/
def fzero : Val → Val → Nat := fun _ _ => 0

/-- An everywhere-one binary factor table. -/
def fone : Val → Val → Nat := fun _ _ => 1

/-- A concrete CSP with no variables at all. -/
def cspEmpty : CSP :=
  { vars := []
    values := fun _ => []
    unary_factors := fun _ => none
    binary_factors := fun _ => [] }

/-- A concrete CSP with one variable, domain `[5]` and no factors. -/
def cspOne : CSP :=
  { vars := [0]
    values := fun _ => [5]
    unary_factors := fun _ => none
    binary_factors := fun _ => [] }

/-- A concrete CSP with one variable whose domain is empty. -/
def cspOneEmpty : CSP :=
  { vars := [0]
    values := fun _ => []
    unary_factors := fun _ => none
    binary_factors := fun _ => [] }

/-- A concrete two-variable CSP (values `0` and `1`) with a symmetric
difference constraint; its two solutions are `0 ↦ 0, 1 ↦ 1` and
`0 ↦ 1, 1 ↦ 0`. -/
def csp2 : CSP :=
  { vars := [0, 1]
    values := fun _ => [0, 1]
    unary_factors := fun _ => none
    binary_factors := fun v =>
      if v = 0 then [(1, neqFactor)]
      else if v = 1 then [(0, neqFactor)] else [] }

/-- The failing input for claim C1: starting from variable `0`, the factor
between `0` and `1` admits nothing, so neighbor `1` is the first neighbor
finalized and its domain becomes empty; neighbor `2` keeps value `9`.
Factors are registered symmetrically, as the data model expects. -/
def cspC1 : CSP :=
  { vars := [0, 1, 2]
    values := fun v => if v = 0 then [5] else if v = 1 then [7] else [9]
    unary_factors := fun _ => none
    binary_factors := fun v =>
      if v = 0 then [(1, fzero), (2, fone)]
      else if v = 1 then [(0, fzero)]
      else if v = 2 then [(0, fone)] else [] }

/-! ## Claim C4 -/

/-- C4: under its documented precondition (`var` has no entry in the
assignment), `check_factors` returns `True` exactly when the unary factor
for `var`, if present, has nonzero weight at `val`, and every binary factor
of `var` towards an already-bound neighbor has nonzero weight at `(val,
bound value)`; equivalently it returns `False` exactly when one of those
checks fails.  Absence of side effects is definitional in the embedding:
the function takes no state and returns only a boolean. -/
theorem c4_check_factors_correct (csp : CSP) (a : Assign) (var : Var)
    (val : Val) (_hpre : memA a var = false) :
    check_factors csp a var val = true ↔
      (∀ uf, csp.unary_factors var = some uf → uf val ≠ 0) ∧
      (∀ p ∈ csp.binary_factors var, ∀ y,
        lookupA a p.1 = some y → p.2 val y ≠ 0) :=
  check_factors_iff csp a var val

/-- Witness for C4 at a concrete input. -/
theorem c4_witness :
    memA [((1 : Var), (1 : Val))] 0 = false ∧
    (check_factors csp2 [((1 : Var), (1 : Val))] 0 0 = true ↔
      (∀ uf, csp2.unary_factors 0 = some uf → uf 0 ≠ 0) ∧
      (∀ p ∈ csp2.binary_factors 0, ∀ y,
        lookupA [((1 : Var), (1 : Val))] p.1 = some y → p.2 0 y ≠ 0)) :=
  ⟨rfl, c4_check_factors_correct csp2 [((1 : Var), (1 : Val))] 0 0 rfl⟩

/-! ## Claim C9 -/

/-- C9: for a CSP with zero variables, `solve` performs exactly one
recursive operation and records exactly one solution, the empty
assignment. -/
theorem c9_zero_variables (csp : CSP) (mcv ac3 : Bool) (fuel : Nat)
    (hv : csp.vars = []) (hf : 1 ≤ fuel) :
    ∃ st, solve csp mcv ac3 fuel = .ok st ∧ st.num_operations = 1 ∧
      st.num_assignments = 1 ∧ st.all_assignments = [[]] := by
  obtain ⟨k, rfl⟩ : ∃ k, fuel = k + 1 := ⟨fuel - 1, by omega⟩
  have h0 : csp.vars_num = 0 := by simp [CSP.vars_num, hv]
  have hrec : record csp [] = some [] := by rw [record, hv]; rfl
  refine ⟨{ num_assignments := 1, num_operations := 1,
            first_assignment_num_operations := 1, all_assignments := [[]],
            domains := fun v => csp.values v, csp_values := csp.values,
            record_ops := [1] }, ?_, rfl, rfl, rfl⟩
  simp only [solve, backtrack, initState, List.length_nil, h0, hrec]
  rfl

/-- Witness for C9 at a concrete input. -/
theorem c9_witness :
    cspEmpty.vars = [] ∧
    (solve cspEmpty false false 1).map
      (fun st => (st.num_operations, st.num_assignments, st.all_assignments)) =
      .ok (1, 1, [[]]) := by
  refine ⟨rfl, ?_⟩
  obtain ⟨st, hst, h1, h2, h3⟩ := c9_zero_variables cspEmpty false false 1 rfl (by omega)
  rw [hst]
  simp [Except.map, h1, h2, h3]

/-! ## Claim C10 -/

/-- Shared helper: whenever the start variable has no registered neighbors,
the first worklist iteration of `arc_consistency_check` runs its neighbor
loop zero times, so line 256 reads the never-bound loop variable
`neighbor_var` and raises `NameError`. -/
theorem ac_nameError_of_no_neighbors (csp : CSP) (fuel : Nat) (var : Var)
    (doms : Var → List Val) (h : csp.get_neighbor_vars var = [])
    (hf : 1 ≤ fuel) :
    arc_consistency_check csp fuel var doms = .error .nameError := by
  obtain ⟨k, rfl⟩ : ∃ k, fuel = k + 1 := ⟨fuel - 1, by omega⟩
  simp [arc_consistency_check, acLoop, h, neighborsLoop]

/-- C10 (amended): the main statement holds — `arc_consistency_check`
raises an unhandled `NameError` whenever the start variable has no
neighbors, so on any branch where `backtrack` with `ac3 = True` tentatively
assigns such a variable, `solve` aborts with the exception; in particular
this happens for every single-variable CSP with no factors whose domain is
nonempty.  (The original example class, every single-variable CSP, is too
wide: with an empty domain no branch assigns the variable, see the
counterexample.) -/
theorem c10_ac3_nameError :
    (∀ (csp : CSP) (fuel : Nat) (var : Var) (doms : Var → List Val),
      csp.get_neighbor_vars var = [] → 1 ≤ fuel →
      arc_consistency_check csp fuel var doms = .error .nameError) ∧
    (∀ (csp : CSP) (v : Var) (x : Val) (xs : List Val) (mcv : Bool) (fuel : Nat),
      csp.vars = [v] → csp.values v = x :: xs →
      csp.unary_factors v = none → csp.binary_factors v = [] →
      2 ≤ fuel → solve csp mcv true fuel = .error .nameError) := by
  refine ⟨ac_nameError_of_no_neighbors, ?_⟩
  intro csp v x xs mcv fuel hv hval hu hb hf
  obtain ⟨k, rfl⟩ : ∃ k, fuel = k + 2 := ⟨fuel - 2, by omega⟩
  have h0 : csp.vars_num = 1 := by simp [CSP.vars_num, hv]
  have hsel : get_unassigned_variable csp mcv [] (initState csp).domains = some v := by
    cases mcv with
    | false => simp [get_unassigned_variable, hv, memA]
    | true => simp [get_unassigned_variable, hv, mcvLoop, memA]
  have hchk : check_factors csp [] v x = true := by
    simp [check_factors, hu, hb, check_binary]
  have hac : ∀ d : Var → List Val,
      arc_consistency_check csp (k + 1) v d = .error .nameError := by
    intro d
    refine ac_nameError_of_no_neighbors csp (k + 1) v d ?_ (by omega)
    simp [CSP.get_neighbor_vars, hb]
  have hdom : (initState csp).domains v = x :: xs := by
    simp [initState, hval]
  simp only [solve, backtrack, List.length_nil, h0, hsel, hdom]
  simp only [if_true, runAc, hchk, hac]
  simp

/-- Witness for C10 at concrete inputs: `cspOne` has one variable with no
neighbors and the nonempty domain `[5]`, and `solve` with propagation
aborts with `NameError`. -/
theorem c10_witness :
    (cspOne.get_neighbor_vars 0 = [] ∧
      arc_consistency_check cspOne 1 0 cspOne.values = .error .nameError) ∧
    (cspOne.vars = [0] ∧ solve cspOne false true 2 = .error .nameError) :=
  ⟨⟨rfl, c10_ac3_nameError.1 cspOne 1 0 cspOne.values rfl (by omega)⟩,
   ⟨rfl, c10_ac3_nameError.2 cspOne 0 5 [] false 2 rfl rfl rfl rfl (by omega)⟩⟩

/-- Counterexample for C10 as stated: its example class, every CSP
consisting of a single variable, is refuted by a single-variable CSP with
an empty domain — with `ac3 = True`, `solve` returns results normally
(one operation, no solutions, no exception). -/
theorem c10_counterexample :
    (solve cspOneEmpty false true 5).map
      (fun st => (st.num_operations, st.num_assignments, st.all_assignments)) =
      .ok (1, 0, []) := rfl

/-! ## Claim C1 -/

/-- C1 (code bug): evaluating `arc_consistency_check` at the failing input
`cspC1` from start variable `0`.  The ghost trace lists the neighbors in
finalization order with their finalized domains: neighbor `1` is finalized
with the empty domain first, yet the function goes on to finalize neighbor
`2` in the same worklist iteration and variable `0` in a second iteration,
and only then returns `False` — through the line-256 check, which looks
only at the last neighbor bound by the loop variable — instead of
reporting failure immediately when `1` became empty. -/
theorem c1_emptiness_check_not_immediate :
    (arc_consistency_check cspC1 5 0 cspC1.values).map
      (fun r => (r.succeed, r.trace)) =
      .ok (false, [(1, []), (2, [9]), (0, [])]) := rfl

/-! ## Claim C3 -/

/-- Each completed iteration of the propagation-enabled value loop restores
the domain snapshot taken before the collapse, so the loop returns the
working domains exactly as it found them whenever it returns normally. -/
theorem runAc_domains_eq (csp : CSP) (bt : Assign → SState → Except PyErr SState)
    (acFuel : Nat) (var : Var) :
    ∀ (vals : List Val) (a : Assign) (st st' : SState),
      runAc csp bt acFuel var vals a st = .ok st' → st'.domains = st.domains := by
  intro vals
  induction vals with
  | nil =>
    intro a st st' h
    simp only [runAc] at h
    cases h
    rfl
  | cons val rest ih =>
    intro a st st' h
    simp only [runAc] at h
    split at h
    · split at h
      · cases h
      · split at h
        · cases h
        · have := ih _ _ _ h
          simpa using this
    · exact ih _ _ _ h

/-- C3: the snapshot/restore pair of the propagation-enabled branch runs on
every normally-returning exit path, so every completed `backtrack` call
with `ac3 = True` leaves the working domains exactly as it found them —
whether propagation succeeded or failed and whether or not the branch
produced solutions; moreover every loop iteration resumes with the
tentatively bound variable unbound again, that is, with the assignment
`delA (setA a1 var val) var`, which equals the original assignment. -/
theorem c3_snapshot_restore (csp : CSP) (mcv : Bool) (fuel : Nat)
    (a : Assign) (st st' : SState)
    (h : backtrack csp mcv true fuel a st = .ok st') :
    st'.domains = st.domains ∧
    (∀ (a1 : Assign) (var : Var) (val : Val), memA a1 var = false →
      delA (setA a1 var val) var = a1) := by
  refine ⟨?_, fun a1 var val h1 => delA_setA val h1⟩
  rcases fuel with _ | n
  · cases h
  · simp only [backtrack] at h
    split at h
    · split at h
      · cases h
      · split at h
        · cases h
          rfl
        · cases h
          rfl
    · split at h
      · cases h
      · have := runAc_domains_eq csp _ n _ _ _ _ _ h
        simpa using this

/-- Witness for C3 at a concrete input. -/
theorem c3_witness :
    (backtrack csp2 false true 10 [] (initState csp2)).map
      (fun st => st.domains 0) = .ok ((initState csp2).domains 0) ∧
    delA (setA [] 0 0) 0 = [] := by
  rcases hrun : backtrack csp2 false true 10 [] (initState csp2) with e | st'
  · have hok : (backtrack csp2 false true 10 [] (initState csp2)).map
      (fun _ => true) = .ok true := rfl
    rw [hrun] at hok
    simp [Except.map] at hok
  · have hc3 := c3_snapshot_restore csp2 false 10 [] (initState csp2) st' hrun
    refine ⟨?_, hc3.2 [] 0 0 rfl⟩
    simp [Except.map, hc3.1]

/-! ## A generic preservation principle for the engine state

Any property of the engine statistics that ignores the working domains and
is closed under the operation-counter increment and the solution-record
step is preserved by every normally-returning run.  It is instantiated for
claims C6, C7 and C8. -/

theorem runNoAc_preserve (P : SState → Prop) (csp : CSP)
    (bt : Assign → SState → Except PyErr SState) (var : Var)
    (hbt : ∀ a st st', bt a st = .ok st' → P st → P st') :
    ∀ (vals : List Val) (a : Assign) (st st' : SState),
      runNoAc csp bt var vals a st = .ok st' → P st → P st' := by
  intro vals
  induction vals with
  | nil =>
    intro a st st' h hp
    simp only [runNoAc] at h
    cases h
    exact hp
  | cons val rest ih =>
    intro a st st' h hp
    simp only [runNoAc] at h
    split at h
    · split at h
      · cases h
      · next st1 hbt1 =>
        exact ih _ _ _ h (hbt _ _ _ hbt1 hp)
    · exact ih _ _ _ h hp

theorem runAc_preserve (P : SState → Prop)
    (hdom : ∀ st d, P st → P { st with domains := d }) (csp : CSP)
    (bt : Assign → SState → Except PyErr SState) (acFuel : Nat) (var : Var)
    (hbt : ∀ a st st', bt a st = .ok st' → P st → P st') :
    ∀ (vals : List Val) (a : Assign) (st st' : SState),
      runAc csp bt acFuel var vals a st = .ok st' → P st → P st' := by
  intro vals
  induction vals with
  | nil =>
    intro a st st' h hp
    simp only [runAc] at h
    cases h
    exact hp
  | cons val rest ih =>
    intro a st st' h hp
    simp only [runAc] at h
    split at h
    · split at h
      · cases h
      · next res hres =>
        have hp2 : P { st with domains := res.domains } := hdom st _ hp
        split at h
        · cases h
        · next st3 hbt3 =>
          have hp3 : P st3 := by
            by_cases hsucc : res.succeed = true
            · rw [if_pos hsucc] at hbt3
              exact hbt _ _ _ hbt3 hp2
            · rw [if_neg hsucc] at hbt3
              cases hbt3
              exact hp2
          exact ih _ _ _ h (hdom st3 _ hp3)
    · exact ih _ _ _ h hp

theorem backtrack_preserve (P : SState → Prop)
    (hdom : ∀ st d, P st → P { st with domains := d })
    (hop : ∀ st, P st → P { st with num_operations := st.num_operations + 1 })
    (hrecA : ∀ st sol, P st → 1 ≤ st.num_operations →
      st.first_assignment_num_operations = 0 →
      P { st with
            num_assignments := st.num_assignments + 1
            all_assignments := st.all_assignments ++ [sol]
            record_ops := st.record_ops ++ [st.num_operations]
            first_assignment_num_operations := st.num_operations })
    (hrecB : ∀ st sol, P st → 1 ≤ st.num_operations →
      ¬ st.first_assignment_num_operations = 0 →
      P { st with
            num_assignments := st.num_assignments + 1
            all_assignments := st.all_assignments ++ [sol]
            record_ops := st.record_ops ++ [st.num_operations] })
    (csp : CSP) (mcv ac3 : Bool) :
    ∀ (fuel : Nat) (a : Assign) (st st' : SState),
      backtrack csp mcv ac3 fuel a st = .ok st' → P st → P st' := by
  intro fuel
  induction fuel with
  | zero =>
    intro a st st' h hp
    cases h
  | succ n ih =>
    intro a st st' h hp
    simp only [backtrack] at h
    have hp1 : P { st with num_operations := st.num_operations + 1 } := hop st hp
    split at h
    · split at h
      · cases h
      · next sol hsol =>
        split at h
        · next h0 =>
          cases h
          exact hrecA _ sol hp1 (by simp) (by simpa using h0)
        · next h0 =>
          cases h
          exact hrecB _ sol hp1 (by simp) (by simpa using h0)
    · split at h
      · cases h
      · split at h
        · exact runAc_preserve P hdom csp _ n _ (fun a2 => ih a2) _ _ _ _ h hp1
        · exact runNoAc_preserve P csp _ _ (fun a2 => ih a2) _ _ _ _ h hp1

/-! ## Claim C8 -/

/-- Shared helper: no engine operation ever writes to the CSP-owned domain
sequences, so `csp_values` survives every normally-returning search. -/
theorem backtrack_csp_values (csp : CSP) (mcv ac3 : Bool) (fuel : Nat)
    (a : Assign) (st st' : SState)
    (h : backtrack csp mcv ac3 fuel a st = .ok st') :
    st'.csp_values = st.csp_values :=
  backtrack_preserve (fun s => s.csp_values = st.csp_values)
    (fun _ _ hh => hh) (fun _ hh => hh) (fun _ _ hh _ _ => hh)
    (fun _ _ hh _ _ => hh) csp mcv ac3 fuel a st st' h rfl

/-- C8: for every CSP and every flag combination, `solve` initializes its
working domains as copies of the CSP's declared domains and never mutates
the CSP's own domain sequences: after a normal return the CSP-owned
`csp_values` state is exactly `csp.values`. -/
theorem c8_declared_domains_unchanged (csp : CSP) (mcv ac3 : Bool)
    (fuel : Nat) (st' : SState) (h : solve csp mcv ac3 fuel = .ok st') :
    st'.csp_values = csp.values ∧
    (initState csp).domains = fun v => csp.values v :=
  ⟨backtrack_csp_values csp mcv ac3 fuel [] (initState csp) st' h, rfl⟩

/-- Witness for C8 at a concrete input. -/
theorem c8_witness :
    (solve csp2 true true 10).map (fun st => st.csp_values 0) = .ok [0, 1] ∧
    (initState csp2).domains 0 = [0, 1] := by
  rcases hrun : solve csp2 true true 10 with e | st'
  · have hok : (solve csp2 true true 10).map (fun _ => true) = .ok true := rfl
    rw [hrun] at hok
    simp [Except.map] at hok
  · have h8 := c8_declared_domains_unchanged csp2 true true 10 st' hrun
    refine ⟨?_, rfl⟩
    simp [Except.map, h8.1]
    rfl

/-! ## Claim C6 -/

/-- C6: the number of recorded assignments equals the length of the
solution list — as an invariant preserved by every normally-returning
recursive call (so it holds at every point of the search where a call has
completed), and as a postcondition of every normally-returning `solve`. -/
theorem c6_assignment_count (csp : CSP) (mcv ac3 : Bool) :
    (∀ (fuel : Nat) (a : Assign) (st st' : SState),
      backtrack csp mcv ac3 fuel a st = .ok st' →
      st.num_assignments = st.all_assignments.length →
      st'.num_assignments = st'.all_assignments.length) ∧
    (∀ (fuel : Nat) (st' : SState), solve csp mcv ac3 fuel = .ok st' →
      st'.num_assignments = st'.all_assignments.length) := by
  have hpres : ∀ (fuel : Nat) (a : Assign) (st st' : SState),
      backtrack csp mcv ac3 fuel a st = .ok st' →
      st.num_assignments = st.all_assignments.length →
      st'.num_assignments = st'.all_assignments.length := by
    intro fuel a st st' h hp
    exact backtrack_preserve (fun s => s.num_assignments = s.all_assignments.length)
      (fun _ _ hh => hh) (fun _ hh => hh)
      (fun s _ hh _ _ => by simpa using hh)
      (fun s _ hh _ _ => by simpa using hh)
      csp mcv ac3 fuel a st st' h hp
  exact ⟨hpres, fun fuel st' h => hpres fuel [] (initState csp) st' h rfl⟩

/-- Witness for C6 at a concrete input. -/
theorem c6_witness :
    (solve csp2 false false 10).map
      (fun st => (st.num_assignments, st.all_assignments.length)) =
      .ok (2, 2) := by
  rcases hrun : solve csp2 false false 10 with e | st'
  · have hok : (solve csp2 false false 10).map (fun _ => true) = .ok true := rfl
    rw [hrun] at hok
    simp [Except.map] at hok
  · have h6 := (c6_assignment_count csp2 false false).2 10 st' hrun
    have hlen : st'.all_assignments.length = 2 := by
      have : (solve csp2 false false 10).map
          (fun st => st.all_assignments.length) = .ok 2 := rfl
      rw [hrun] at this
      simpa [Except.map] using this
    simp [Except.map, h6, hlen]

/-! ## Claim C7 -/

/-- The statistics invariant behind claim C7: the first-solution marker is
zero exactly while no solution has been recorded, the ghost list
`record_ops` has one entry per recorded solution, its head is the marker,
and the marker never exceeds the operation counter. -/
def StatsInv (st : SState) : Prop :=
  (st.all_assignments = [] ↔ st.first_assignment_num_operations = 0) ∧
  st.record_ops.length = st.all_assignments.length ∧
  (st.all_assignments ≠ [] →
    st.record_ops.head? = some st.first_assignment_num_operations) ∧
  st.first_assignment_num_operations ≤ st.num_operations

/-- Shared helper: `StatsInv` is preserved by every normally-returning
recursive call. -/
theorem backtrack_statsInv (csp : CSP) (mcv ac3 : Bool) (fuel : Nat)
    (a : Assign) (st st' : SState)
    (h : backtrack csp mcv ac3 fuel a st = .ok st') (hp : StatsInv st) :
    StatsInv st' := by
  refine backtrack_preserve StatsInv (fun s d hh => hh)
    ?_ ?_ ?_ csp mcv ac3 fuel a st st' h hp
  · intro s hh
    obtain ⟨h1, h2, h3, h4⟩ := hh
    exact ⟨h1, h2, h3, by simpa using Nat.le_succ_of_le h4⟩
  · intro s sol hh hpos h0
    obtain ⟨h1, h2, h3, h4⟩ := hh
    have hall : s.all_assignments = [] := h1.mpr h0
    have hops : s.record_ops = [] := by
      have := h2
      rw [hall] at this
      simpa using this
    refine ⟨?_, ?_, ?_, ?_⟩
    · simp
      omega
    · simp [hall, hops]
    · intro _
      simp [hops]
    · simp
  · intro s sol hh hpos h0
    obtain ⟨h1, h2, h3, h4⟩ := hh
    have hall : s.all_assignments ≠ [] := fun he => h0 (h1.mp he)
    have hops : s.record_ops ≠ [] := by
      intro he
      rw [he] at h2
      exact hall (List.eq_nil_of_length_eq_zero h2.symm)
    refine ⟨?_, ?_, ?_, ?_⟩
    · simp [h0]
    · simp [h2]
    · intro _
      rw [List.head?_append]
      rcases hr : s.record_ops with _ | ⟨r, rs⟩
      · exact absurd hr hops
      · simpa [hr] using h3 hall
    · simpa using h4

/-- C7: after a normally-returning `solve`, the first-solution marker is
`0` when no solution was recorded; otherwise it equals the operation
counter at the recursive call that recorded the first solution (the head
of the ghost trace `record_ops`), it is positive, and it never exceeds the
total operation count. -/
theorem c7_first_solution_marker (csp : CSP) (mcv ac3 : Bool) (fuel : Nat)
    (st' : SState) (h : solve csp mcv ac3 fuel = .ok st') :
    (st'.all_assignments = [] → st'.first_assignment_num_operations = 0) ∧
    (st'.all_assignments ≠ [] →
      st'.record_ops.head? = some st'.first_assignment_num_operations ∧
      0 < st'.first_assignment_num_operations ∧
      st'.first_assignment_num_operations ≤ st'.num_operations) := by
  have hinit : StatsInv (initState csp) := by
    refine ⟨by simp [initState], by simp [initState], ?_, by simp [initState]⟩
    intro hne
    exact absurd rfl hne
  have hinv : StatsInv st' :=
    backtrack_statsInv csp mcv ac3 fuel [] (initState csp) st' h hinit
  obtain ⟨h1, h2, h3, h4⟩ := hinv
  refine ⟨fun he => h1.mp he, fun hne => ⟨h3 hne, ?_, h4⟩⟩
  have : st'.first_assignment_num_operations ≠ 0 := fun he => hne (h1.mpr he)
  omega

/-- Witness for C7 at a concrete input. -/
theorem c7_witness :
    (solve csp2 false false 10).map
      (fun st => (st.record_ops.head? == some st.first_assignment_num_operations,
        decide (0 < st.first_assignment_num_operations),
        decide (st.first_assignment_num_operations ≤ st.num_operations))) =
      .ok (true, true, true) := by
  rcases hrun : solve csp2 false false 10 with e | st'
  · have hok : (solve csp2 false false 10).map (fun _ => true) = .ok true := rfl
    rw [hrun] at hok
    simp [Except.map] at hok
  · have hall : (solve csp2 false false 10).map (fun st => st.all_assignments) =
      .ok [[(0, 0), (1, 1)], [(0, 1), (1, 0)]] := rfl
    rw [hrun] at hall
    simp only [Except.map, Except.ok.injEq] at hall
    have hne : st'.all_assignments ≠ [] := by
      rw [hall]
      simp
    have h7 := (c7_first_solution_marker csp2 false false 10 st' hrun).2 hne
    simp [Except.map, h7.1, h7.2.1, h7.2.2]

/-! ## Claim C5 -/

/-- Shared helper: `List.find?` returns the first element satisfying the
predicate, when one exists. -/
theorem find?_first_spec {α : Type} (p : α → Bool) :
    ∀ (l : List α), (∃ x ∈ l, p x = true) →
      ∃ w pre post, l.find? p = some w ∧ l = pre ++ w :: post ∧
        p w = true ∧ ∀ x ∈ pre, p x = false := by
  intro l
  induction l with
  | nil =>
    rintro ⟨v, hv, _⟩
    cases hv
  | cons v rest ih =>
    intro hex
    by_cases hv : p v = true
    · exact ⟨v, [], rest, by simp [List.find?_cons_of_pos rest hv], rfl, hv, by simp⟩
    · have hvf : p v = false := by
        rwa [Bool.not_eq_true] at hv
      have hex' : ∃ x ∈ rest, p x = true := by
        obtain ⟨w, hw, hwp⟩ := hex
        rcases List.mem_cons.mp hw with rfl | hw'
        · exact absurd hwp hv
        · exact ⟨w, hw', hwp⟩
      obtain ⟨w, pre, post, heq, hsplit, h1, h2⟩ := ih hex'
      refine ⟨w, v :: pre, post, ?_, by simp [hsplit], h1, ?_⟩
      · rw [List.find?_cons_of_neg _ hv]
        exact heq
      · intro x hx
        rcases List.mem_cons.mp hx with rfl | hx'
        · exact hvf
        · exact h2 x hx'

/-- Shared helper: the MCV loop starting from an installed minimum
`m = numConsistent acc` with `acc` unassigned either keeps `acc` (and then
every unassigned variable of the remaining list has count at least `m`) or
moves to the first remaining unassigned variable that strictly lowers the
minimum. -/
theorem mcvLoop_go (csp : CSP) (a : Assign) (doms : Var → List Val) :
    ∀ (vs : List Var) (acc : Var) (m : Nat),
      memA a acc = false → numConsistent csp a doms acc = m →
      (mcvLoop csp a doms vs (some m) acc = acc ∧
        ∀ v ∈ vs, memA a v = false → m ≤ numConsistent csp a doms v) ∨
      (∃ r pre post, mcvLoop csp a doms vs (some m) acc = r ∧
        vs = pre ++ r :: post ∧ memA a r = false ∧
        numConsistent csp a doms r < m ∧
        (∀ v ∈ vs, memA a v = false →
          numConsistent csp a doms r ≤ numConsistent csp a doms v) ∧
        (∀ v ∈ pre, memA a v = false →
          numConsistent csp a doms r < numConsistent csp a doms v)) := by
  intro vs
  induction vs with
  | nil =>
    intro acc m hacc hm
    left
    exact ⟨rfl, by simp⟩
  | cons v rest ih =>
    intro acc m hacc hm
    by_cases hv : memA a v = true
    · rcases ih acc m hacc hm with ⟨heq, hall⟩ | ⟨r, pre, post, heq, hsplit, h1, h2, h3, h4⟩
      · left
        refine ⟨by simp only [mcvLoop, hv]; exact heq, ?_⟩
        intro w hw hwm
        rcases List.mem_cons.mp hw with rfl | hw'
        · rw [hv] at hwm
          cases hwm
        · exact hall w hw' hwm
      · right
        refine ⟨r, v :: pre, post, by simp only [mcvLoop, hv]; exact heq,
          by simp [hsplit], h1, h2, ?_, ?_⟩
        · intro w hw hwm
          rcases List.mem_cons.mp hw with rfl | hw'
          · rw [hv] at hwm
            cases hwm
          · exact h3 w hw' hwm
        · intro w hw hwm
          rcases List.mem_cons.mp hw with rfl | hw'
          · rw [hv] at hwm
            cases hwm
          · exact h4 w hw' hwm
    · have hvf : memA a v = false := by
        rwa [Bool.not_eq_true] at hv
      by_cases hlt : numConsistent csp a doms v < m
      · rcases ih v (numConsistent csp a doms v) hvf rfl with ⟨heq, hall⟩ |
          ⟨r, pre, post, heq, hsplit, h1, h2, h3, h4⟩
        · right
          refine ⟨v, [], rest, by simp only [mcvLoop, hvf, hlt]; simpa using heq,
            rfl, hvf, hlt, ?_, by simp⟩
          intro w hw hwm
          rcases List.mem_cons.mp hw with rfl | hw'
          · exact Nat.le_refl _
          · exact hall w hw' hwm
        · right
          refine ⟨r, v :: pre, post,
            by simp only [mcvLoop, hvf, hlt]; simpa using heq,
            by simp [hsplit], h1, Nat.lt_trans h2 hlt, ?_, ?_⟩
          · intro w hw hwm
            rcases List.mem_cons.mp hw with rfl | hw'
            · exact Nat.le_of_lt h2
            · exact h3 w hw' hwm
          · intro w hw hwm
            rcases List.mem_cons.mp hw with rfl | hw'
            · exact h2
            · exact h4 w hw' hwm
      · rcases ih acc m hacc hm with ⟨heq, hall⟩ |
          ⟨r, pre, post, heq, hsplit, h1, h2, h3, h4⟩
        · left
          refine ⟨by simp only [mcvLoop, hvf, hlt]; simpa using heq, ?_⟩
          intro w hw hwm
          rcases List.mem_cons.mp hw with rfl | hw'
          · exact Nat.le_of_not_lt hlt
          · exact hall w hw' hwm
        · right
          refine ⟨r, v :: pre, post,
            by simp only [mcvLoop, hvf, hlt]; simpa using heq,
            by simp [hsplit], h1, h2, ?_, ?_⟩
          · intro w hw hwm
            rcases List.mem_cons.mp hw with rfl | hw'
            · exact Nat.le_of_lt (Nat.lt_of_lt_of_le h2 (Nat.le_of_not_lt hlt))
            · exact h3 w hw' hwm
          · intro w hw hwm
            rcases List.mem_cons.mp hw with rfl | hw'
            · exact Nat.lt_of_lt_of_le h2 (Nat.le_of_not_lt hlt)
            · exact h4 w hw' hwm

/-- Shared helper: started with the infinite sentinel, the MCV loop returns
the first unassigned variable achieving the minimal consistent-value count,
whenever an unassigned variable exists. -/
theorem mcvLoop_none_spec (csp : CSP) (a : Assign) (doms : Var → List Val) :
    ∀ (vs : List Var) (acc : Var), (∃ v ∈ vs, memA a v = false) →
      ∃ r pre post, mcvLoop csp a doms vs none acc = r ∧
        vs = pre ++ r :: post ∧ memA a r = false ∧
        (∀ v ∈ vs, memA a v = false →
          numConsistent csp a doms r ≤ numConsistent csp a doms v) ∧
        (∀ v ∈ pre, memA a v = false →
          numConsistent csp a doms r < numConsistent csp a doms v) := by
  intro vs
  induction vs with
  | nil =>
    rintro acc ⟨v, hv, _⟩
    cases hv
  | cons v rest ih =>
    intro acc hex
    by_cases hv : memA a v = true
    · have hex' : ∃ w ∈ rest, memA a w = false := by
        obtain ⟨w, hw, hwm⟩ := hex
        rcases List.mem_cons.mp hw with rfl | hw'
        · rw [hv] at hwm
          cases hwm
        · exact ⟨w, hw', hwm⟩
      obtain ⟨r, pre, post, heq, hsplit, h1, h2, h3⟩ := ih acc hex'
      refine ⟨r, v :: pre, post, by simp only [mcvLoop, hv]; exact heq,
        by simp [hsplit], h1, ?_, ?_⟩
      · intro w hw hwm
        rcases List.mem_cons.mp hw with rfl | hw'
        · rw [hv] at hwm
          cases hwm
        · exact h2 w hw' hwm
      · intro w hw hwm
        rcases List.mem_cons.mp hw with rfl | hw'
        · rw [hv] at hwm
          cases hwm
        · exact h3 w hw' hwm
    · have hvf : memA a v = false := by
        rwa [Bool.not_eq_true] at hv
      rcases mcvLoop_go csp a doms rest v (numConsistent csp a doms v) hvf rfl with
        ⟨heq, hall⟩ | ⟨r, pre, post, heq, hsplit, h1, h2, h3, h4⟩
      · refine ⟨v, [], rest, by simp only [mcvLoop, hvf]; simpa using heq,
          rfl, hvf, ?_, by simp⟩
        intro w hw hwm
        rcases List.mem_cons.mp hw with rfl | hw'
        · exact Nat.le_refl _
        · exact hall w hw' hwm
      · refine ⟨r, v :: pre, post, by simp only [mcvLoop, hvf]; simpa using heq,
          by simp [hsplit], h1, ?_, ?_⟩
        · intro w hw hwm
          rcases List.mem_cons.mp hw with rfl | hw'
          · exact Nat.le_of_lt h2
          · exact h3 w hw' hwm
        · intro w hw hwm
          rcases List.mem_cons.mp hw with rfl | hw'
          · exact h2
          · exact h4 w hw' hwm

/-- C5: when at least one variable is unassigned, static selection returns
the first unassigned variable in declaration order, and MCV selection
returns an unassigned variable whose count of currently consistent domain
values (per `check_factors`) is minimal among the unassigned variables,
the earliest declared one in case of ties (every strictly earlier
unassigned variable has a strictly larger count). -/
theorem c5_variable_selection (csp : CSP) (a : Assign) (doms : Var → List Val)
    (hex : ∃ v ∈ csp.vars, memA a v = false) :
    (∃ w pre post, get_unassigned_variable csp false a doms = some w ∧
      csp.vars = pre ++ w :: post ∧ memA a w = false ∧
      ∀ v ∈ pre, memA a v = true) ∧
    (∃ w pre post, get_unassigned_variable csp true a doms = some w ∧
      csp.vars = pre ++ w :: post ∧ memA a w = false ∧
      (∀ v ∈ csp.vars, memA a v = false →
        numConsistent csp a doms w ≤ numConsistent csp a doms v) ∧
      (∀ v ∈ pre, memA a v = false →
        numConsistent csp a doms w < numConsistent csp a doms v)) := by
  constructor
  · obtain ⟨w, pre, post, heq, hsplit, h1, h2⟩ :=
      find?_first_spec (fun v => !(memA a v)) csp.vars
        (by obtain ⟨v, hv, hvm⟩ := hex; exact ⟨v, hv, by simp [hvm]⟩)
    refine ⟨w, pre, post, ?_, hsplit, by simpa using h1, ?_⟩
    · simp only [get_unassigned_variable, if_neg]
      exact heq
    · intro v hv
      have := h2 v hv
      simpa using this
  · rcases hvars : csp.vars with _ | ⟨v0, vrest⟩
    · obtain ⟨v, hv, _⟩ := hex
      rw [hvars] at hv
      cases hv
    · obtain ⟨r, pre, post, heq, hsplit, h1, h2, h3⟩ :=
        mcvLoop_none_spec csp a doms csp.vars v0 hex
      rw [hvars] at heq hsplit h2
      refine ⟨r, pre, post, ?_, hsplit, h1, h2, h3⟩
      rw [get_unassigned_variable, if_pos rfl, hvars]
      show some (mcvLoop csp a doms (v0 :: vrest) none v0) = some r
      rw [heq]

/-- Witness for C5 at a concrete input. -/
theorem c5_witness :
    get_unassigned_variable csp2 false [] (initState csp2).domains = some 0 ∧
    get_unassigned_variable csp2 true [] (initState csp2).domains = some 0 := by
  have _h5 := c5_variable_selection csp2 [] (initState csp2).domains
    ⟨0, by simp [csp2], rfl⟩
  exact ⟨rfl, rfl⟩

/-! ## Claim C2: the semantic solution set

The remaining sections characterize, under the data model's well-formedness
expectations, the assignments recorded by every normally-returning run:
they are exactly the semantic solutions, for every flag combination. -/

/-- Predicate: `sol` preserves every binding of `a`. -/
def coversA (sol a : Assign) : Prop := ∀ p ∈ a, lookupA sol p.1 = some p.2

/-- All directed binary factors registered from `v` are satisfied by `sol`
when `v` takes the value `x`. -/
def dirOK (csp : CSP) (sol : Assign) (v : Var) (x : Val) : Prop :=
  ∀ q ∈ csp.binary_factors v, ∀ y, lookupA sol q.1 = some y → q.2 x y ≠ 0

/-- Semantic solutions: complete assignments in declaration order whose
values lie in the declared domains and satisfy every unary factor and every
directed binary factor. -/
def isSol (csp : CSP) (sol : Assign) : Prop :=
  sol.map Prod.fst = csp.vars ∧
  ∀ p ∈ sol, p.2 ∈ csp.values p.1 ∧ unaryOKb csp p.1 p.2 = true ∧
    dirOK csp sol p.1 p.2

/-- The data-model expectation of §3: every registered binary factor has a
symmetrically registered mirror with the transposed zero pattern. -/
def SymmFactors (csp : CSP) : Prop :=
  ∀ (v1 v2 : Var) (q : Var × (Val → Val → Nat)),
    q ∈ csp.binary_factors v2 → q.1 = v1 →
    ∃ p ∈ csp.binary_factors v1, p.1 = v2 ∧ ∀ x y, (p.2 x y = 0 ↔ q.2 y x = 0)

/-- Well-formedness of the factor dicts (§6): binary factors are registered
between distinct declared variables. -/
def WFFactors (csp : CSP) : Prop :=
  ∀ v, ∀ q ∈ csp.binary_factors v, q.1 ∈ csp.vars ∧ q.1 ≠ v

/-- The search invariant on partial assignments: distinct declared keys,
values from the declared domains, and every unary and directed binary
factor within the assignment satisfied. -/
def GoodA (csp : CSP) (a : Assign) : Prop :=
  (a.map Prod.fst).Nodup ∧
  (∀ p ∈ a, p.1 ∈ csp.vars) ∧
  (∀ p ∈ a, p.2 ∈ csp.values p.1) ∧
  (∀ p ∈ a, unaryOKb csp p.1 p.2 = true) ∧
  (∀ p ∈ a, ∀ q ∈ csp.binary_factors p.1, ∀ y,
    lookupA a q.1 = some y → q.2 p.2 y ≠ 0)

/-! ### Further dict lemmas -/

theorem lookupA_cons (w : Var) (y : Val) (t : Assign) (v : Var) :
    lookupA ((w, y) :: t) v = if w = v then some y else lookupA t v := by
  by_cases h : w = v
  · subst h
    simp [lookupA, List.find?_cons_of_pos]
  · have : ((w, y).1 == v) = false := by simpa using h
    simp [lookupA, List.find?_cons_of_neg, this, h]

theorem memA_true_iff_keys (a : Assign) (v : Var) :
    memA a v = true ↔ v ∈ a.map Prod.fst := by
  rw [memA, Option.isSome_iff_exists]
  constructor
  · rintro ⟨p, hp⟩
    have := List.mem_of_find?_eq_some hp
    have hv := List.find?_some hp
    simp only [beq_iff_eq] at hv
    exact List.mem_map.mpr ⟨p, this, hv⟩
  · intro h
    obtain ⟨p, hp, hpv⟩ := List.mem_map.mp h
    rcases hfind : a.find? (fun q => q.1 == v) with _ | q
    · rw [List.find?_eq_none] at hfind
      exact absurd (by simpa using hpv) (by simpa using hfind p hp)
    · exact ⟨q, hfind⟩

theorem lookupA_of_mem_nodup : ∀ {a : Assign}, (a.map Prod.fst).Nodup →
    ∀ {v : Var} {x : Val}, (v, x) ∈ a → lookupA a v = some x := by
  intro a
  induction a with
  | nil =>
    intro _ v x h
    cases h
  | cons p t ih =>
    intro hnd v x h
    obtain ⟨w, y⟩ := p
    rw [List.map_cons, List.nodup_cons] at hnd
    rcases List.mem_cons.mp h with heq | ht
    · cases heq
      rw [lookupA_cons, if_pos rfl]
    · rw [lookupA_cons, if_neg, ih hnd.2 ht]
      intro hwv
      subst hwv
      exact hnd.1 (List.mem_map.mpr ⟨(w, x), ht, rfl⟩)

theorem lookupA_eq_none_of_not_key {a : Assign} {v : Var}
    (h : v ∉ a.map Prod.fst) : lookupA a v = none := by
  rw [lookupA_eq_none_iff]
  intro p hp hpv
  exact h (List.mem_map.mpr ⟨p, hp, hpv⟩)

theorem eq_of_keys_lookup : ∀ (s1 s2 : Assign),
    s1.map Prod.fst = s2.map Prod.fst → (s1.map Prod.fst).Nodup →
    (∀ v, lookupA s1 v = lookupA s2 v) → s1 = s2 := by
  intro s1
  induction s1 with
  | nil =>
    intro s2 hk _ _
    rcases s2 with _ | ⟨q, t2⟩
    · rfl
    · cases hk
  | cons p t1 ih =>
    intro s2 hk hnd hl
    obtain ⟨w, y⟩ := p
    rcases s2 with _ | ⟨⟨w2, y2⟩, t2⟩
    · cases hk
    · rw [List.map_cons, List.map_cons] at hk
      have hw : w = w2 := by
        have := congrArg (fun l => l.headI) hk
        simpa using this
      subst hw
      rw [List.map_cons, List.nodup_cons] at hnd
      have hy : y = y2 := by
        have h1 := hl w
        rw [lookupA_cons, lookupA_cons, if_pos rfl, if_pos rfl] at h1
        simpa using h1
      subst hy
      have hkt : t1.map Prod.fst = t2.map Prod.fst := by
        have := congrArg List.tail hk
        simpa using this
      have hlt : ∀ v, lookupA t1 v = lookupA t2 v := by
        intro v
        by_cases hv : w = v
        · subst hv
          rw [lookupA_eq_none_of_not_key hnd.1, lookupA_eq_none_of_not_key]
          rw [← hkt]
          exact hnd.1
        · have := hl v
          rwa [lookupA_cons, lookupA_cons, if_neg hv, if_neg hv] at this
      rw [ih t2 hkt hnd.2 hlt]

theorem coversA_setA {sol a : Assign} {v : Var} {x : Val}
    (h : memA a v = false) :
    coversA sol (setA a v x) ↔ coversA sol a ∧ lookupA sol v = some x := by
  rw [setA_of_not_mem x h, coversA]
  constructor
  · intro hc
    exact ⟨fun p hp => hc p (List.mem_append_left _ hp),
      hc (v, x) (List.mem_append_right _ (by simp))⟩
  · rintro ⟨hc, hv⟩ p hp
    rcases List.mem_append.mp hp with hp' | hp'
    · exact hc p hp'
    · have : p = (v, x) := by simpa using hp'
      rw [this]
      exact hv

/-! ### Cardinality facts about keys and variables -/

theorem keys_cover_of_length_eq {csp : CSP} {a : Assign}
    (hnd : csp.vars.Nodup) (hknd : (a.map Prod.fst).Nodup)
    (hsub : ∀ p ∈ a, p.1 ∈ csp.vars) (hlen : a.length = csp.vars.length) :
    ∀ v ∈ csp.vars, memA a v = true := by
  intro v hv
  rw [memA_true_iff_keys]
  have hsub' : (a.map Prod.fst).toFinset ⊆ csp.vars.toFinset := by
    intro w hw
    rw [List.mem_toFinset] at hw ⊢
    obtain ⟨p, hp, hpw⟩ := List.mem_map.mp hw
    rw [← hpw]
    exact hsub p hp
  have hcard : csp.vars.toFinset.card ≤ (a.map Prod.fst).toFinset.card := by
    rw [List.toFinset_card_of_nodup hnd, List.toFinset_card_of_nodup hknd]
    simp [hlen]
  have := Finset.eq_of_subset_of_card_le hsub' hcard
  rw [← List.mem_toFinset, this, List.mem_toFinset]
  exact hv

theorem exists_unassigned_of_length_ne {csp : CSP} {a : Assign}
    (hnd : csp.vars.Nodup) (hknd : (a.map Prod.fst).Nodup)
    (hsub : ∀ p ∈ a, p.1 ∈ csp.vars) (hlen : a.length ≠ csp.vars.length) :
    ∃ v ∈ csp.vars, memA a v = false := by
  by_contra hcon
  push_neg at hcon
  have hall : ∀ v ∈ csp.vars, v ∈ a.map Prod.fst := by
    intro v hv
    have := hcon v hv
    rcases hm : memA a v with _ | _
    · exact absurd hm this
    · exact (memA_true_iff_keys a v).mp hm
  apply hlen
  have h1 : a.length = (a.map Prod.fst).length := by simp
  rw [h1]
  apply Nat.le_antisymm
  · have hsub' : (a.map Prod.fst).toFinset ⊆ csp.vars.toFinset := by
      intro w hw
      rw [List.mem_toFinset] at hw ⊢
      obtain ⟨p, hp, hpw⟩ := List.mem_map.mp hw
      rw [← hpw]
      exact hsub p hp
    have := Finset.card_le_card hsub'
    rwa [List.toFinset_card_of_nodup hnd, List.toFinset_card_of_nodup hknd] at this
  · have hsub' : csp.vars.toFinset ⊆ (a.map Prod.fst).toFinset := by
      intro w hw
      rw [List.mem_toFinset] at hw ⊢
      exact hall w hw
    have := Finset.card_le_card hsub'
    rwa [List.toFinset_card_of_nodup hnd, List.toFinset_card_of_nodup hknd] at this

/-! ### Consistency checks against semantic solutions -/

/-- A semantic solution passes `check_factors` at any of its own bindings,
against any partial assignment it covers. -/
theorem check_factors_of_sol (csp : CSP) {a sol : Assign} {var : Var} {x : Val}
    (hsol : isSol csp sol) (hcov : coversA sol a)
    (hvx : lookupA sol var = some x) :
    check_factors csp a var x = true := by
  obtain ⟨hkeys, hprops⟩ := hsol
  have hmem : (var, x) ∈ sol := lookupA_mem hvx
  obtain ⟨_, hu, hd⟩ := hprops (var, x) hmem
  rw [check_factors_iff]
  constructor
  · intro uf huf
    simp only [unaryOKb, huf] at hu
    simpa using hu
  · intro q hq y hy
    exact hd q hq y (hcov (q.1, y) (lookupA_mem hy))

/-- Binding a checked value to an unassigned declared variable preserves
the search invariant, given symmetric registration and well-formed factor
dicts. -/
theorem GoodA_setA (csp : CSP) (hsym : SymmFactors csp) (hwf : WFFactors csp)
    {a : Assign} {var : Var} {x : Val}
    (hg : GoodA csp a) (hmem : memA a var = false) (hvar : var ∈ csp.vars)
    (hval : x ∈ csp.values var) (hchk : check_factors csp a var x = true) :
    GoodA csp (setA a var x) := by
  obtain ⟨hnd, hkeys, hvals, hun, hbin⟩ := hg
  obtain ⟨hu, hb⟩ := (check_factors_iff csp a var x).mp hchk
  have hnotkey : var ∉ a.map Prod.fst := by
    intro hk
    rw [← memA_true_iff_keys] at hk
    rw [hk] at hmem
    cases hmem
  have hset : setA a var x = a ++ [(var, x)] := setA_of_not_mem x hmem
  refine ⟨?_, ?_, ?_, ?_, ?_⟩
  · rw [keys_setA x hmem]
    rw [List.nodup_append]
    refine ⟨hnd, by simp, ?_⟩
    intro w hw
    simp only [List.mem_singleton]
    intro hwv
    subst hwv
    exact hnotkey hw
  · intro p hp
    rw [hset] at hp
    rcases List.mem_append.mp hp with h' | h'
    · exact hkeys p h'
    · have : p = (var, x) := by simpa using h'
      rw [this]
      exact hvar
  · intro p hp
    rw [hset] at hp
    rcases List.mem_append.mp hp with h' | h'
    · exact hvals p h'
    · have : p = (var, x) := by simpa using h'
      rw [this]
      exact hval
  · intro p hp
    rw [hset] at hp
    rcases List.mem_append.mp hp with h' | h'
    · exact hun p h'
    · have : p = (var, x) := by simpa using h'
      rw [this]
      rcases huf : csp.unary_factors var with _ | uf
      · simp [unaryOKb, huf]
      · simp only [unaryOKb, huf]
        simpa using hu uf huf
  · intro p hp q hq y hy
    rw [hset] at hp
    rw [lookupA_setA x hmem q.1] at hy
    by_cases hqv : q.1 = var
    · rw [if_pos hqv] at hy
      have hyx : x = y := by
        injection hy with h'
      rcases List.mem_append.mp hp with h' | h'
      · obtain ⟨p', hp', hp'1, hiff⟩ := hsym var p.1 q hq hqv
        have hlk : lookupA a p'.1 = some p.2 := by
          rw [hp'1]
          exact lookupA_of_mem_nodup hnd h'
        have hne := hb p' hp' p.2 hlk
        intro hzero
        rw [← hyx] at hzero
        exact hne ((hiff x p.2).mpr hzero)
      · have hpv : p = (var, x) := by simpa using h'
        rw [hpv] at hq
        exact absurd hqv (hwf var q hq).2
    · rw [if_neg hqv] at hy
      rcases List.mem_append.mp hp with h' | h'
      · exact hbin p h' q hq y hy
      · have hpv : p = (var, x) := by simpa using h'
        subst hpv
        exact hb q hq y hy

/-- Shared helper: the record step succeeds and rebuilds the assignment in
declaration order when every listed variable is bound. -/
theorem record_aux (a : Assign) : ∀ (vs : List Var),
    (∀ v ∈ vs, ∃ x, lookupA a v = some x) →
    ∃ sol, recordLoop a vs = some sol ∧
      sol.map Prod.fst = vs ∧ ∀ p ∈ sol, lookupA a p.1 = some p.2 := by
  intro vs
  induction vs with
  | nil =>
    intro _
    exact ⟨[], rfl, rfl, by simp⟩
  | cons v t ih =>
    intro h
    obtain ⟨x, hx⟩ := h v (by simp)
    obtain ⟨sol, hsol, hkeys, hlook⟩ := ih (fun w hw => h w (by simp [hw]))
    refine ⟨(v, x) :: sol, ?_, by simp [hkeys], ?_⟩
    · rw [recordLoop, hx, hsol]
    · intro p hp
      rcases List.mem_cons.mp hp with rfl | hp2
      · exact hx
      · exact hlook p hp2

/-- Shared helper: at a complete good assignment the record step produces
exactly the unique semantic solution covering that assignment. -/
theorem record_char (csp : CSP) (hnd : csp.vars.Nodup) {a : Assign}
    (hg : GoodA csp a) (hlen : a.length = csp.vars.length) :
    ∃ sol0, record csp a = some sol0 ∧ isSol csp sol0 ∧ coversA sol0 a ∧
      ∀ sol, isSol csp sol → coversA sol a → sol = sol0 := by
  obtain ⟨hknd, hkeys, hvals, hun, hbin⟩ := hg
  have hallmem : ∀ v ∈ csp.vars, memA a v = true :=
    keys_cover_of_length_eq hnd hknd hkeys hlen
  have hall : ∀ v ∈ csp.vars, ∃ x, lookupA a v = some x := by
    intro v hv
    have := hallmem v hv
    rw [memA_eq_isSome_lookupA] at this
    exact Option.isSome_iff_exists.mp this
  obtain ⟨sol0, hrec, hk0, hl0⟩ := record_aux a csp.vars hall
  have hnd0 : (sol0.map Prod.fst).Nodup := by
    rw [hk0]
    exact hnd
  have hlookup0 : ∀ (v : Var),
      lookupA sol0 v = if v ∈ csp.vars then lookupA a v else none := by
    intro v
    by_cases hv : v ∈ csp.vars
    · rw [if_pos hv]
      have hvk : v ∈ sol0.map Prod.fst := by
        rw [hk0]
        exact hv
      obtain ⟨p, hp, hpv⟩ := List.mem_map.mp hvk
      have h1 : lookupA sol0 p.1 = some p.2 :=
        lookupA_of_mem_nodup hnd0 (by simpa using hp)
      rw [← hpv, h1, hl0 p hp]
    · rw [if_neg hv]
      apply lookupA_eq_none_of_not_key
      rw [hk0]
      exact hv
  have hrec' : record csp a = some sol0 := by
    rw [record]
    exact hrec
  have hsol0 : isSol csp sol0 := by
    refine ⟨hk0, ?_⟩
    intro p hp
    have hmem : (p.1, p.2) ∈ a := lookupA_mem (hl0 p hp)
    refine ⟨hvals _ hmem, hun _ hmem, ?_⟩
    intro q hq y hy
    rw [hlookup0 q.1] at hy
    by_cases hqv : q.1 ∈ csp.vars
    · rw [if_pos hqv] at hy
      exact hbin _ hmem q hq y hy
    · rw [if_neg hqv] at hy
      cases hy
  have hcov0 : coversA sol0 a := by
    intro p hp
    rw [hlookup0 p.1, if_pos (hkeys p hp)]
    exact lookupA_of_mem_nodup hknd (by simpa using hp)
  refine ⟨sol0, hrec', hsol0, hcov0, ?_⟩
  intro sol hs hc
  apply eq_of_keys_lookup sol sol0 (hs.1.trans hk0.symm)
    (by rw [hs.1]; exact hnd)
  intro v
  by_cases hv : v ∈ csp.vars
  · have hvk : v ∈ a.map Prod.fst :=
      (memA_true_iff_keys a v).mp (hallmem v hv)
    obtain ⟨p, hp, hpv⟩ := List.mem_map.mp hvk
    have ha : lookupA a p.1 = some p.2 :=
      lookupA_of_mem_nodup hknd (by simpa using hp)
    have h1 : lookupA sol p.1 = some p.2 := hc (p.1, p.2) (by simpa using hp)
    rw [← hpv, h1, hlookup0 p.1, if_pos (by rw [hpv]; exact hv), ha]
  · rw [lookupA_eq_none_of_not_key (by rw [hs.1]; exact hv),
      lookupA_eq_none_of_not_key (by rw [hk0]; exact hv)]

/-- Shared helper: whenever an unassigned declared variable exists, the
selector (in either mode) returns one. -/
theorem selector_ok (csp : CSP) (mcv : Bool) (a : Assign)
    (doms : Var → List Val) (hex : ∃ v ∈ csp.vars, memA a v = false) :
    ∃ w, get_unassigned_variable csp mcv a doms = some w ∧ w ∈ csp.vars ∧
      memA a w = false := by
  cases mcv with
  | false =>
    obtain ⟨w, pre, post, heq, hsplit, h1, _⟩ := find?_first_spec
      (fun v => !(memA a v)) csp.vars
      (by obtain ⟨v, hv, hvm⟩ := hex; exact ⟨v, hv, by simp [hvm]⟩)
    refine ⟨w, ?_, by rw [hsplit]; simp, by simpa using h1⟩
    simp only [get_unassigned_variable, if_neg]
    exact heq
  | true =>
    rcases hvars : csp.vars with _ | ⟨v0, vrest⟩
    · obtain ⟨v, hv, _⟩ := hex
      rw [hvars] at hv
      cases hv
    · obtain ⟨r, pre, post, heq, hsplit, h1, _, _⟩ :=
        mcvLoop_none_spec csp a doms csp.vars v0 hex
      rw [hvars] at heq
      refine ⟨r, ?_, by rw [← hvars, hsplit]; simp, h1⟩
      rw [get_unassigned_variable, if_pos rfl, hvars]
      show some (mcvLoop csp a doms (v0 :: vrest) none v0) = some r
      rw [heq]

/-! ### Domain invariants for the characterization -/

/-- Every working domain is contained in the declared domain. -/
def DomsSub (csp : CSP) (doms : Var → List Val) : Prop :=
  ∀ v, ∀ x ∈ doms v, x ∈ csp.values v

/-- No value of a semantic solution extending `a` has been pruned. -/
def SolsIn (csp : CSP) (a : Assign) (doms : Var → List Val) : Prop :=
  ∀ sol, isSol csp sol → coversA sol a → ∀ p ∈ sol, p.2 ∈ doms p.1

/-- Shared helper: without propagation, `backtrack` never writes the
working domains. -/
theorem runNoAc_domains (csp : CSP) (bt : Assign → SState → Except PyErr SState)
    (var : Var) (hbt : ∀ a st st', bt a st = .ok st' → st'.domains = st.domains) :
    ∀ (vals : List Val) (a : Assign) (st st' : SState),
      runNoAc csp bt var vals a st = .ok st' → st'.domains = st.domains := by
  intro vals
  induction vals with
  | nil =>
    intro a st st' h
    simp only [runNoAc] at h
    cases h
    rfl
  | cons val rest ih =>
    intro a st st' h
    simp only [runNoAc] at h
    split at h
    · split at h
      · cases h
      · next st1 hbt1 =>
        rw [ih _ _ _ h, hbt _ _ _ hbt1]
    · exact ih _ _ _ h

/-- Shared helper: a `backtrack` run with `ac3 = False` returns the working
domains unchanged. -/
theorem backtrack_noac_domains (csp : CSP) (mcv : Bool) :
    ∀ (fuel : Nat) (a : Assign) (st st' : SState),
      backtrack csp mcv false fuel a st = .ok st' → st'.domains = st.domains := by
  intro fuel
  induction fuel with
  | zero =>
    intro a st st' h
    cases h
  | succ n ih =>
    intro a st st' h
    simp only [backtrack] at h
    split at h
    · split at h
      · cases h
      · split at h
        · cases h
          rfl
        · cases h
          rfl
    · split at h
      · cases h
      · rw [if_neg (by simp : ¬(false = true))] at h
        have h2 := runNoAc_domains csp _ _ ih _ _ _ _ h
        simpa using h2

/-- Shared helper: a neighbor key always yields a factor-table entry, and
`CSP.bf` returns that entry's table. -/
theorem bf_entry (csp : CSP) {cv nb : Var}
    (h : nb ∈ (csp.binary_factors cv).map Prod.fst) :
    ∃ p0 ∈ csp.binary_factors cv, p0.1 = nb ∧ csp.bf cv nb = p0.2 := by
  obtain ⟨p, hp, hpv⟩ := List.mem_map.mp h
  have hsome : ((csp.binary_factors cv).find? (fun q => q.1 == nb)).isSome = true :=
    List.find?_isSome.mpr ⟨p, hp, by simp [hpv]⟩
  rcases hfind : (csp.binary_factors cv).find? (fun q => q.1 == nb) with _ | p0
  · rw [hfind] at hsome
    cases hsome
  · refine ⟨p0, List.mem_of_find?_eq_some hfind, ?_, ?_⟩
    · have := List.find?_some hfind
      simpa using this
    · rw [CSP.bf, hfind]

/-! ### Lemmas about the per-neighbor value loop -/

/-- The value loop writes only the neighbor's domain. -/
theorem reviseVals_other (csp : CSP) (cv nb : Var) :
    ∀ (nvs nd : List Val) (dc : Bool) (doms : Var → List Val) (q : List Var)
      (v : Var), v ≠ nb →
      (reviseVals csp cv nb nvs nd dc doms q).1 v = doms v := by
  intro nvs
  induction nvs with
  | nil =>
    intro nd dc doms q v hv
    rfl
  | cons nv rest ih =>
    intro nd dc doms q v hv
    simp only [reviseVals]
    split
    · split
      · rw [ih _ _ _ _ v hv]
        simp [updD, hv]
      · rw [ih _ _ _ _ v hv]
    · rw [if_pos rfl, ih _ _ _ _ v hv]
      simp [updD, hv]

/-- Every value of the neighbor's final domain comes from the accumulator,
the remaining snapshot, or the previous domain. -/
theorem reviseVals_mem (csp : CSP) (cv nb : Var) :
    ∀ (nvs nd : List Val) (dc : Bool) (doms : Var → List Val) (q : List Var)
      (x : Val), x ∈ (reviseVals csp cv nb nvs nd dc doms q).1 nb →
      x ∈ nd ∨ x ∈ nvs ∨ x ∈ doms nb := by
  intro nvs
  induction nvs with
  | nil =>
    intro nd dc doms q x hx
    exact Or.inr (Or.inr hx)
  | cons nv rest ih =>
    intro nd dc doms q x hx
    simp only [reviseVals] at hx
    split at hx
    · split at hx
      · rcases ih _ _ _ _ x hx with h1 | h1 | h1
        · rcases List.mem_append.mp h1 with h2 | h2
          · exact Or.inl h2
          · have h3 : x = nv := by simpa using h2
            exact Or.inr (Or.inl (by rw [h3]; exact List.mem_cons_self _ _))
        · exact Or.inr (Or.inl (List.mem_cons_of_mem _ h1))
        · simp only [updD, if_pos rfl] at h1
          rcases List.mem_append.mp h1 with h2 | h2
          · exact Or.inl h2
          · have h3 : x = nv := by simpa using h2
            exact Or.inr (Or.inl (by rw [h3]; exact List.mem_cons_self _ _))
      · rcases ih _ _ _ _ x hx with h1 | h1 | h1
        · rcases List.mem_append.mp h1 with h2 | h2
          · exact Or.inl h2
          · have h3 : x = nv := by simpa using h2
            exact Or.inr (Or.inl (by rw [h3]; exact List.mem_cons_self _ _))
        · exact Or.inr (Or.inl (List.mem_cons_of_mem _ h1))
        · exact Or.inr (Or.inr h1)
    · rw [if_pos rfl] at hx
      rcases ih _ _ _ _ x hx with h1 | h1 | h1
      · exact Or.inl h1
      · exact Or.inr (Or.inl (List.mem_cons_of_mem _ h1))
      · simp only [updD, if_pos rfl] at h1
        exact Or.inl h1

/-- Every worklist entry appended by the value loop is the neighbor. -/
theorem reviseVals_queue (csp : CSP) (cv nb : Var) :
    ∀ (nvs nd : List Val) (dc : Bool) (doms : Var → List Val) (q : List Var)
      (w : Var), w ∈ (reviseVals csp cv nb nvs nd dc doms q).2 →
      w ∈ q ∨ w = nb := by
  intro nvs
  induction nvs with
  | nil =>
    intro nd dc doms q w hw
    exact Or.inl hw
  | cons nv rest ih =>
    intro nd dc doms q w hw
    simp only [reviseVals] at hw
    split at hw
    · split at hw
      · rcases ih _ _ _ _ w hw with h1 | h1
        · rcases List.mem_append.mp h1 with h2 | h2
          · exact Or.inl h2
          · exact Or.inr (by simpa using h2)
        · exact Or.inr h1
      · exact ih _ _ _ _ w hw
    · rw [if_pos rfl] at hw
      rcases ih _ _ _ _ w hw with h1 | h1
      · rcases List.mem_append.mp h1 with h2 | h2
        · exact Or.inl h2
        · exact Or.inr (by simpa using h2)
      · exact Or.inr h1

/-- A value of the snapshot that passes both the unary and the support test
(against the dequeued variable's unchanging domain) survives the value
loop. -/
theorem reviseVals_keep (csp : CSP) (cv nb : Var) (hne : nb ≠ cv) :
    ∀ (nvs nd : List Val) (dc : Bool) (doms : Var → List Val) (q : List Var)
      (x : Val),
      unaryOKb csp nb x = true →
      hasSupport (csp.bf cv nb) (doms cv) x = true →
      (x ∈ nd ∨ x ∈ nvs) →
      (dc = false → (∀ y ∈ nd, y ∈ doms nb) ∧ (∀ y ∈ nvs, y ∈ doms nb)) →
      (dc = true → doms nb = nd) →
      x ∈ (reviseVals csp cv nb nvs nd dc doms q).1 nb := by
  intro nvs
  induction nvs with
  | nil =>
    intro nd dc doms q x hu hs hx hdcf hdct
    rcases hx with hx | hx
    · rcases hdc : dc with _ | _
      · simp only [reviseVals]
        exact (hdcf hdc).1 x hx
      · simp only [reviseVals]
        rw [hdct hdc]
        exact hx
    · cases hx
  | cons nv rest ih =>
    intro nd dc doms q x hu hs hx hdcf hdct
    simp only [reviseVals]
    by_cases hub : (unaryOKb csp nb nv && hasSupport (csp.bf cv nb) (doms cv) nv) = true
    · rw [if_pos hub, if_pos hub]
      have hx2 : x ∈ nd ++ [nv] ∨ x ∈ rest := by
        rcases hx with h1 | h1
        · exact Or.inl (List.mem_append_left _ h1)
        · rcases List.mem_cons.mp h1 with rfl | h2
          · exact Or.inl (List.mem_append_right _ (by simp))
          · exact Or.inr h2
      rcases hdc : dc with _ | _
      · rw [if_neg (by simp : ¬(false = true))]
        refine ih _ _ _ _ x hu hs hx2 ?_ ?_
        · intro _
          constructor
          · intro y hy
            rcases List.mem_append.mp hy with h1 | h1
            · exact (hdcf hdc).1 y h1
            · have h2 : y = nv := by simpa using h1
              rw [h2]
              exact (hdcf hdc).2 nv (by simp)
          · intro y hy
            exact (hdcf hdc).2 y (List.mem_cons_of_mem _ hy)
        · intro hcon
          cases hcon
      · rw [if_pos rfl]
        refine ih _ _ _ _ x hu ?_ hx2 ?_ ?_
        · have hcvnb : (updD doms nb (nd ++ [nv])) cv = doms cv := by
            simp only [updD]
            rw [if_neg (fun hh : cv = nb => hne hh.symm)]
          rw [hcvnb]
          exact hs
        · intro hcon
          cases hcon
        · intro _
          simp [updD]
    · rw [if_neg hub, if_neg hub, if_pos rfl]
      have hx2 : x ∈ nd ∨ x ∈ rest := by
        rcases hx with h1 | h1
        · exact Or.inl h1
        · rcases List.mem_cons.mp h1 with rfl | h2
          · exact absurd (by simp [hu, hs]) hub
          · exact Or.inr h2
      refine ih _ _ _ _ x hu ?_ hx2 ?_ ?_
      · have hcvnb : (updD doms nb nd) cv = doms cv := by
          simp only [updD]
          rw [if_neg (fun hh : cv = nb => hne hh.symm)]
        rw [hcvnb]
        exact hs
      · intro hcon
        cases hcon
      · intro _
        simp [updD]

/-- Shared helper: one worklist iteration's neighbor loop keeps the
working domains inside the declared domains, prunes no value of a semantic
solution covering the current tentative assignment, appends only processed
neighbors to the worklist, and leaves the loop variable bound to a
processed neighbor or its previous value. -/
theorem neighborsLoop_inv (csp : CSP) (hwf : WFFactors csp)
    (hnd : csp.vars.Nodup) (A1 : Assign) (cv : Var) (hcv : cv ∈ csp.vars) :
    ∀ (nbs : List Var) (doms : Var → List Val) (q : List Var)
      (lastNb : Option Var) (tr : List (Var × List Val)),
      (∀ nb ∈ nbs, nb ∈ (csp.binary_factors cv).map Prod.fst) →
      DomsSub csp doms → SolsIn csp A1 doms →
      DomsSub csp (neighborsLoop csp cv nbs doms q lastNb tr).1 ∧
      SolsIn csp A1 (neighborsLoop csp cv nbs doms q lastNb tr).1 ∧
      (∀ w ∈ (neighborsLoop csp cv nbs doms q lastNb tr).2.1,
        w ∈ q ∨ w ∈ nbs) ∧
      (∀ nb2, (neighborsLoop csp cv nbs doms q lastNb tr).2.2.1 = some nb2 →
        nb2 ∈ nbs ∨ lastNb = some nb2) := by
  intro nbs
  induction nbs with
  | nil =>
    intro doms q lastNb tr _ hd hsol
    exact ⟨hd, hsol, fun w hw => Or.inl hw, fun nb2 h2 => Or.inr h2⟩
  | cons nb rest ih =>
    intro doms q lastNb tr hkeys hd hsol
    have hnbkey : nb ∈ (csp.binary_factors cv).map Prod.fst := hkeys nb (by simp)
    obtain ⟨p0, hp0, hp01, hbf⟩ := bf_entry csp hnbkey
    have hnbvars : nb ∈ csp.vars := by
      have := (hwf cv p0 hp0).1
      rwa [hp01] at this
    have hnbne : nb ≠ cv := by
      have := (hwf cv p0 hp0).2
      rwa [hp01] at this
    have hd1 : DomsSub csp (reviseVals csp cv nb (doms nb) [] false doms q).1 := by
      intro v x hx
      by_cases hv : v = nb
      · subst hv
        rcases reviseVals_mem csp cv v _ _ _ _ _ x hx with h1 | h1 | h1
        · cases h1
        · exact hd v x h1
        · exact hd v x h1
      · rw [reviseVals_other csp cv nb _ _ _ _ _ v hv] at hx
        exact hd v x hx
    have hsol1 : SolsIn csp A1 (reviseVals csp cv nb (doms nb) [] false doms q).1 := by
      intro sol hisol hcov p hp
      have hsolkeys : (sol.map Prod.fst).Nodup := by
        rw [hisol.1]
        exact hnd
      by_cases hv : p.1 = nb
      · have hu : unaryOKb csp nb p.2 = true := by
          have := (hisol.2 p hp).2.1
          rwa [hv] at this
        have hcvsol : cv ∈ sol.map Prod.fst := by
          rw [hisol.1]
          exact hcv
        obtain ⟨pc, hpc, hpcv⟩ := List.mem_map.mp hcvsol
        have hyc : pc.2 ∈ doms cv := by
          have := hsol sol hisol hcov pc hpc
          rwa [hpcv] at this
        have hlknb : lookupA sol nb = some p.2 := by
          rw [← hv]
          exact lookupA_of_mem_nodup hsolkeys (by simpa using hp)
        have hdir := (hisol.2 pc hpc).2.2
        rw [dirOK, hpcv] at hdir
        have hne0 : p0.2 pc.2 p.2 ≠ 0 := by
          apply hdir p0 hp0 p.2
          rw [hp01]
          exact hlknb
        have hsupp : hasSupport (csp.bf cv nb) (doms cv) p.2 = true := by
          rw [hbf, hasSupport, List.any_eq_true]
          exact ⟨pc.2, hyc, by simpa using hne0⟩
        have hpd : p.2 ∈ doms nb := by
          have := hsol sol hisol hcov p hp
          rwa [hv] at this
        have hkeep := reviseVals_keep csp cv nb hnbne (doms nb) [] false doms q
          p.2 hu hsupp (Or.inr hpd)
          (fun _ => ⟨by simp, fun y hy => hy⟩) (fun hcon => by cases hcon)
        rw [hv]
        exact hkeep
      · rw [reviseVals_other csp cv nb _ _ _ _ _ p.1 hv]
        exact hsol sol hisol hcov p hp
    obtain ⟨ihd, ihsol, ihq, ihl⟩ := ih
      (reviseVals csp cv nb (doms nb) [] false doms q).1
      (reviseVals csp cv nb (doms nb) [] false doms q).2 (some nb)
      (tr ++ [(nb, (reviseVals csp cv nb (doms nb) [] false doms q).1 nb)])
      (fun nb2 h2 => hkeys nb2 (by simp [h2])) hd1 hsol1
    refine ⟨?_, ?_, ?_, ?_⟩ <;> simp only [neighborsLoop]
    · exact ihd
    · exact ihsol
    · intro w hw
      rcases ihq w hw with h1 | h1
      · rcases reviseVals_queue csp cv nb _ _ _ _ _ w h1 with h2 | h2
        · exact Or.inl h2
        · exact Or.inr (by simp [h2])
      · exact Or.inr (by simp [h1])
    · intro nb2 h2
      rcases ihl nb2 h2 with h1 | h1
      · exact Or.inl (by simp [h1])
      · have h3 : nb = nb2 := by
          injection h1
        exact Or.inl (by rw [← h3]; simp)

/-- Shared helper: a normally-returning worklist loop keeps both domain
invariants, and a `False` verdict means no semantic solution covers the
tentative assignment. -/
theorem acLoop_inv (csp : CSP) (hwf : WFFactors csp) (hnd : csp.vars.Nodup)
    (A1 : Assign) :
    ∀ (fuel : Nat) (queue : List Var) (doms : Var → List Val)
      (lastNb : Option Var) (tr : List (Var × List Val)) (res : AcResult),
      (∀ w ∈ queue, w ∈ csp.vars) →
      (∀ nb, lastNb = some nb → nb ∈ csp.vars) →
      DomsSub csp doms → SolsIn csp A1 doms →
      acLoop csp fuel queue doms lastNb tr = .ok res →
      DomsSub csp res.domains ∧ SolsIn csp A1 res.domains ∧
      (res.succeed = false → ∀ sol, isSol csp sol → coversA sol A1 → False) := by
  intro fuel
  induction fuel with
  | zero =>
    intro queue doms lastNb tr res _ _ _ _ h
    cases h
  | succ n ih =>
    intro queue doms lastNb tr res hq hlast hd hsol h
    rcases queue with _ | ⟨cv, qrest⟩
    · simp only [acLoop] at h
      cases h
      refine ⟨hd, hsol, ?_⟩
      intro hfalse
      cases hfalse
    · simp only [acLoop] at h
      obtain ⟨nbd, nbsol, nbq, nbl⟩ := neighborsLoop_inv csp hwf hnd A1 cv
        (hq cv (by simp)) (csp.get_neighbor_vars cv) doms qrest lastNb tr
        (fun nb2 hnb2 => by rwa [CSP.get_neighbor_vars] at hnb2) hd hsol
      have hvarsof : ∀ nb2,
          (neighborsLoop csp cv (csp.get_neighbor_vars cv) doms qrest lastNb tr).2.2.1
            = some nb2 → nb2 ∈ csp.vars := by
        intro nb2 h2
        rcases nbl nb2 h2 with h1 | h1
        · rw [CSP.get_neighbor_vars] at h1
          obtain ⟨p1, hp1, hp11⟩ := List.mem_map.mp h1
          have := (hwf cv p1 hp1).1
          rwa [hp11] at this
        · exact hlast nb2 h1
      rcases hl1 : (neighborsLoop csp cv (csp.get_neighbor_vars cv) doms qrest
          lastNb tr).2.2.1 with _ | nb
      · rw [hl1] at h
        cases h
      · rw [hl1] at h
        have h2 : (if (neighborsLoop csp cv (csp.get_neighbor_vars cv) doms
              qrest lastNb tr).1 nb = [] then
            (Except.ok ⟨false,
              (neighborsLoop csp cv (csp.get_neighbor_vars cv) doms qrest lastNb tr).1,
              (neighborsLoop csp cv (csp.get_neighbor_vars cv) doms qrest lastNb tr).2.2.2⟩ :
              Except PyErr AcResult)
          else acLoop csp n
            (neighborsLoop csp cv (csp.get_neighbor_vars cv) doms qrest lastNb tr).2.1
            (neighborsLoop csp cv (csp.get_neighbor_vars cv) doms qrest lastNb tr).1
            (some nb)
            (neighborsLoop csp cv (csp.get_neighbor_vars cv) doms qrest lastNb tr).2.2.2)
            = Except.ok res := h
        clear h
        by_cases hempty : (neighborsLoop csp cv (csp.get_neighbor_vars cv) doms
            qrest lastNb tr).1 nb = []
        · rw [if_pos hempty] at h2
          cases h2
          refine ⟨nbd, nbsol, ?_⟩
          intro _ sol hisol hcov
          have hnbv : nb ∈ csp.vars := hvarsof nb hl1
          have hnbk : nb ∈ sol.map Prod.fst := by
            rw [hisol.1]
            exact hnbv
          obtain ⟨pnb, hpnb, hpnb1⟩ := List.mem_map.mp hnbk
          have := nbsol sol hisol hcov pnb hpnb
          rw [hpnb1, hempty] at this
          cases this
        · rw [if_neg hempty] at h2
          refine ih _ _ _ _ res ?_ ?_ nbd nbsol h2
          · intro w hw
            rcases nbq w hw with h1 | h1
            · exact hq w (List.mem_cons_of_mem _ h1)
            · rw [CSP.get_neighbor_vars] at h1
              obtain ⟨p1, hp1, hp11⟩ := List.mem_map.mp h1
              have := (hwf cv p1 hp1).1
              rwa [hp11] at this
          · intro nb2 h2
            injection h2 with h3
            rw [← h3]
            exact hvarsof nb hl1

/-- The solutions a value loop over `vals` can still discover: semantic
solutions covering the current assignment whose value at the selected
variable lies in the remaining value list. -/
def Picked (csp : CSP) (a : Assign) (var : Var) (vals : List Val)
    (sol : Assign) : Prop :=
  isSol csp sol ∧ coversA sol a ∧ ∃ x, lookupA sol var = some x ∧ x ∈ vals

/-- Shared helper: the propagation-free value loop records exactly the
solutions picked from its value list. -/
theorem runNoAc_char (csp : CSP) (hnd : csp.vars.Nodup)
    (hsym : SymmFactors csp) (hwf : WFFactors csp)
    (bt : Assign → SState → Except PyErr SState)
    (hbt : ∀ (a : Assign) (st st' : SState), GoodA csp a →
      DomsSub csp st.domains → SolsIn csp a st.domains → bt a st = .ok st' →
      ∃ Δ, st'.all_assignments = st.all_assignments ++ Δ ∧
        ∀ sol, sol ∈ Δ ↔ (isSol csp sol ∧ coversA sol a))
    (hbtdom : ∀ a st st', bt a st = .ok st' → st'.domains = st.domains)
    (var : Var) (hvar : var ∈ csp.vars) :
    ∀ (vals : List Val) (a : Assign) (st st' : SState),
      GoodA csp a → memA a var = false →
      (∀ x ∈ vals, x ∈ csp.values var) →
      DomsSub csp st.domains → SolsIn csp a st.domains →
      runNoAc csp bt var vals a st = .ok st' →
      ∃ Δ, st'.all_assignments = st.all_assignments ++ Δ ∧
        ∀ sol, sol ∈ Δ ↔ Picked csp a var vals sol := by
  intro vals
  induction vals with
  | nil =>
    intro a st st' hg hmem hvals hd hsol h
    simp only [runNoAc] at h
    cases h
    refine ⟨[], by simp, ?_⟩
    intro sol
    simp [Picked]
  | cons val rest ih =>
    intro a st st' hg hmem hvals hd hsol h
    simp only [runNoAc] at h
    split at h
    · next hchk =>
      split at h
      · cases h
      · next st1 hbt1 =>
        have hg1 : GoodA csp (setA a var val) :=
          GoodA_setA csp hsym hwf hg hmem hvar (hvals val (by simp)) hchk
        have hsol1 : SolsIn csp (setA a var val) st.domains := by
          intro sol hisol hcov
          refine hsol sol hisol ?_
          intro p hp
          refine hcov p ?_
          rw [setA_of_not_mem val hmem]
          exact List.mem_append_left _ hp
        obtain ⟨Δ1, hΔ1, hiff1⟩ := hbt (setA a var val) st st1 hg1 hd hsol1 hbt1
        have hdom1 : st1.domains = st.domains := hbtdom _ _ _ hbt1
        rw [delA_setA val hmem] at h
        obtain ⟨Δ2, hΔ2, hiff2⟩ := ih a st1 st' hg hmem
          (fun x hx => hvals x (by simp [hx]))
          (by rw [hdom1]; exact hd) (by rw [hdom1]; exact hsol) h
        refine ⟨Δ1 ++ Δ2, by rw [hΔ2, hΔ1, List.append_assoc], ?_⟩
        intro sol
        rw [List.mem_append]
        constructor
        · rintro (h1 | h2)
          · obtain ⟨hi, hc1⟩ := (hiff1 sol).mp h1
            obtain ⟨hc, hlk⟩ := (coversA_setA hmem).mp hc1
            exact ⟨hi, hc, val, hlk, by simp⟩
          · obtain ⟨hi, hc, x, hlk, hx⟩ := (hiff2 sol).mp h2
            exact ⟨hi, hc, x, hlk, by simp [hx]⟩
        · rintro ⟨hi, hc, x, hlk, hx⟩
          rcases List.mem_cons.mp hx with rfl | hx2
          · exact Or.inl ((hiff1 sol).mpr ⟨hi, (coversA_setA hmem).mpr ⟨hc, hlk⟩⟩)
          · exact Or.inr ((hiff2 sol).mpr ⟨hi, hc, x, hlk, hx2⟩)
    · next hchk =>
      obtain ⟨Δ, hΔ, hiff⟩ := ih a st st' hg hmem
        (fun x hx => hvals x (by simp [hx])) hd hsol h
      refine ⟨Δ, hΔ, ?_⟩
      intro sol
      rw [hiff sol]
      constructor
      · rintro ⟨hi, hc, x, hlk, hx⟩
        exact ⟨hi, hc, x, hlk, by simp [hx]⟩
      · rintro ⟨hi, hc, x, hlk, hx⟩
        rcases List.mem_cons.mp hx with rfl | hx2
        · exact absurd (check_factors_of_sol csp hi hc hlk) hchk
        · exact ⟨hi, hc, x, hlk, hx2⟩

/-- Shared helper: the propagation-enabled value loop also records exactly
the solutions picked from its value list — the collapse keeps the
solution's own value, propagation never prunes a solution value
(`acLoop_inv`), and a failure verdict certifies that no solution covers the
tentative binding, so the skipped recursion loses nothing. -/
theorem runAc_char (csp : CSP) (hnd : csp.vars.Nodup)
    (hsym : SymmFactors csp) (hwf : WFFactors csp)
    (bt : Assign → SState → Except PyErr SState)
    (hbt : ∀ (a : Assign) (st st' : SState), GoodA csp a →
      DomsSub csp st.domains → SolsIn csp a st.domains → bt a st = .ok st' →
      ∃ Δ, st'.all_assignments = st.all_assignments ++ Δ ∧
        ∀ sol, sol ∈ Δ ↔ (isSol csp sol ∧ coversA sol a))
    (acFuel : Nat) (var : Var) (hvar : var ∈ csp.vars) :
    ∀ (vals : List Val) (a : Assign) (st st' : SState),
      GoodA csp a → memA a var = false →
      (∀ x ∈ vals, x ∈ st.domains var) →
      DomsSub csp st.domains → SolsIn csp a st.domains →
      runAc csp bt acFuel var vals a st = .ok st' →
      ∃ Δ, st'.all_assignments = st.all_assignments ++ Δ ∧
        ∀ sol, sol ∈ Δ ↔ Picked csp a var vals sol := by
  intro vals
  induction vals with
  | nil =>
    intro a st st' hg hmem hvals hd hsol h
    simp only [runAc] at h
    cases h
    refine ⟨[], by simp, ?_⟩
    intro sol
    simp [Picked]
  | cons val rest ih =>
    intro a st st' hg hmem hvals hd hsol h
    simp only [runAc] at h
    split at h
    · next hchk =>
      split at h
      · cases h
      · next res hres =>
        simp only [arc_consistency_check] at hres
        have hvv : val ∈ csp.values var := hd var val (hvals val (by simp))
        have hg1 : GoodA csp (setA a var val) :=
          GoodA_setA csp hsym hwf hg hmem hvar hvv hchk
        have hda : DomsSub csp (updD st.domains var [val]) := by
          intro v x hx
          simp only [updD] at hx
          by_cases hv : v = var
          · rw [if_pos hv] at hx
            have : x = val := by simpa using hx
            rw [this, hv]
            exact hvv
          · rw [if_neg hv] at hx
            exact hd v x hx
        have hsa : SolsIn csp (setA a var val) (updD st.domains var [val]) := by
          intro sol hisol hcov p hp
          have hsolkeys : (sol.map Prod.fst).Nodup := by
            rw [hisol.1]
            exact hnd
          obtain ⟨hcova, hlkv⟩ := (coversA_setA hmem).mp hcov
          simp only [updD]
          by_cases hv : p.1 = var
          · rw [if_pos hv]
            have h1 : lookupA sol p.1 = some p.2 :=
              lookupA_of_mem_nodup hsolkeys (by simpa using hp)
            rw [hv, hlkv] at h1
            have : p.2 = val := by injection h1 with h2; exact h2.symm
            simp [this]
          · rw [if_neg hv]
            exact hsol sol hisol hcova p hp
        obtain ⟨hacd, hacs, hacf⟩ := acLoop_inv csp hwf hnd (setA a var val)
          acFuel [var] (updD st.domains var [val]) none [] res
          (by intro w hw
              simp only [List.mem_singleton] at hw
              rw [hw]
              exact hvar)
          (by intro nb h2; cases h2) hda hsa hres
        split at h
        · cases h
        · next st3 hbt3 =>
          by_cases hsucc : res.succeed = true
          · rw [if_pos hsucc] at hbt3
            obtain ⟨Δ1, hΔ1, hiff1⟩ := hbt (setA a var val) _ st3 hg1 hacd hacs hbt3
            rw [delA_setA val hmem] at h
            obtain ⟨Δ2, hΔ2, hiff2⟩ := ih a { st3 with domains := st.domains } st'
              hg hmem (fun x hx => hvals x (by simp [hx])) hd hsol h
            refine ⟨Δ1 ++ Δ2, ?_, ?_⟩
            · rw [hΔ2]
              show st3.all_assignments ++ Δ2 =
                st.all_assignments ++ (Δ1 ++ Δ2)
              rw [hΔ1]
              show (st.all_assignments ++ Δ1) ++ Δ2 =
                st.all_assignments ++ (Δ1 ++ Δ2)
              rw [List.append_assoc]
            · intro sol
              rw [List.mem_append]
              constructor
              · rintro (h1 | h2)
                · obtain ⟨hi, hc1⟩ := (hiff1 sol).mp h1
                  obtain ⟨hc, hlk⟩ := (coversA_setA hmem).mp hc1
                  exact ⟨hi, hc, val, hlk, by simp⟩
                · obtain ⟨hi, hc, x, hlk, hx⟩ := (hiff2 sol).mp h2
                  exact ⟨hi, hc, x, hlk, by simp [hx]⟩
              · rintro ⟨hi, hc, x, hlk, hx⟩
                rcases List.mem_cons.mp hx with rfl | hx2
                · exact Or.inl ((hiff1 sol).mpr
                    ⟨hi, (coversA_setA hmem).mpr ⟨hc, hlk⟩⟩)
                · exact Or.inr ((hiff2 sol).mpr ⟨hi, hc, x, hlk, hx2⟩)
          · rw [if_neg hsucc] at hbt3
            have hsf : res.succeed = false := by
              rwa [Bool.not_eq_true] at hsucc
            cases hbt3
            rw [delA_setA val hmem] at h
            obtain ⟨Δ2, hΔ2, hiff2⟩ := ih a _ st' hg hmem
              (fun x hx => hvals x (by simp [hx])) hd hsol h
            refine ⟨Δ2, ?_, ?_⟩
            · rw [hΔ2]
            · intro sol
              rw [hiff2 sol]
              constructor
              · rintro ⟨hi, hc, x, hlk, hx⟩
                exact ⟨hi, hc, x, hlk, by simp [hx]⟩
              · rintro ⟨hi, hc, x, hlk, hx⟩
                rcases List.mem_cons.mp hx with rfl | hx2
                · exact ((hacf hsf) sol hi
                    ((coversA_setA hmem).mpr ⟨hc, hlk⟩)).elim
                · exact ⟨hi, hc, x, hlk, hx2⟩
    · next hchk =>
      obtain ⟨Δ, hΔ, hiff⟩ := ih a st st' hg hmem
        (fun x hx => hvals x (by simp [hx])) hd hsol h
      refine ⟨Δ, hΔ, ?_⟩
      intro sol
      rw [hiff sol]
      constructor
      · rintro ⟨hi, hc, x, hlk, hx⟩
        exact ⟨hi, hc, x, hlk, by simp [hx]⟩
      · rintro ⟨hi, hc, x, hlk, hx⟩
        rcases List.mem_cons.mp hx with rfl | hx2
        · exact absurd (check_factors_of_sol csp hi hc hlk) hchk
        · exact ⟨hi, hc, x, hlk, hx2⟩

/-- Shared helper, the central characterization: under the data model's
well-formedness expectations, every normally-returning recursive call
appends to the solution list exactly the semantic solutions covering its
partial assignment — for every combination of the two heuristic flags. -/
theorem backtrack_char (csp : CSP) (hnd : csp.vars.Nodup)
    (hsym : SymmFactors csp) (hwf : WFFactors csp) (mcv ac3 : Bool) :
    ∀ (fuel : Nat) (a : Assign) (st st' : SState),
      GoodA csp a → DomsSub csp st.domains → SolsIn csp a st.domains →
      backtrack csp mcv ac3 fuel a st = .ok st' →
      ∃ Δ, st'.all_assignments = st.all_assignments ++ Δ ∧
        ∀ sol, sol ∈ Δ ↔ (isSol csp sol ∧ coversA sol a) := by
  intro fuel
  induction fuel with
  | zero =>
    intro a st st' _ _ _ h
    cases h
  | succ n ih =>
    intro a st st' hg hd hsol h
    simp only [backtrack] at h
    split at h
    · next hlen =>
      have hlen2 : a.length = csp.vars.length := by
        rw [CSP.vars_num] at hlen
        exact hlen
      obtain ⟨sol0, hrec, hsol0, hcov0, huniq⟩ := record_char csp hnd hg hlen2
      split at h
      · next hnone =>
        rw [hrec] at hnone
        cases hnone
      · next sol hsome =>
        have hss : sol = sol0 := by
          rw [hsome] at hrec
          injection hrec
        subst hss
        split at h
        · cases h
          refine ⟨[sol], rfl, ?_⟩
          intro s2
          constructor
          · intro hs2
            have h2 : s2 = sol := by simpa using hs2
            rw [h2]
            exact ⟨hsol0, hcov0⟩
          · rintro ⟨hi, hc⟩
            have h2 := huniq s2 hi hc
            simp [h2]
        · cases h
          refine ⟨[sol], rfl, ?_⟩
          intro s2
          constructor
          · intro hs2
            have h2 : s2 = sol := by simpa using hs2
            rw [h2]
            exact ⟨hsol0, hcov0⟩
          · rintro ⟨hi, hc⟩
            have h2 := huniq s2 hi hc
            simp [h2]
    · next hlen =>
      have hlen2 : a.length ≠ csp.vars.length := by
        rw [CSP.vars_num] at hlen
        exact hlen
      have hex : ∃ v ∈ csp.vars, memA a v = false :=
        exists_unassigned_of_length_ne hnd hg.1 hg.2.1 hlen2
      obtain ⟨w, hw, hwvars, hwmem⟩ := selector_ok csp mcv a st.domains hex
      have hpick : ∀ sol, Picked csp a w (st.domains w) sol ↔
          (isSol csp sol ∧ coversA sol a) := by
        intro sol
        constructor
        · rintro ⟨hi, hc, _, _, _⟩
          exact ⟨hi, hc⟩
        · rintro ⟨hi, hc⟩
          have hwk : w ∈ sol.map Prod.fst := by
            rw [hi.1]
            exact hwvars
          obtain ⟨p, hp, hpv⟩ := List.mem_map.mp hwk
          have hlk : lookupA sol w = some p.2 := by
            rw [← hpv]
            exact lookupA_of_mem_nodup (by rw [hi.1]; exact hnd) (by simpa using hp)
          have hxd : p.2 ∈ st.domains w := by
            have h2 := hsol sol hi hc p hp
            rwa [hpv] at h2
          exact ⟨hi, hc, p.2, hlk, hxd⟩
      split at h
      · next hnone =>
        rw [hw] at hnone
        cases hnone
      · next var hvar2 =>
        have hvw : var = w := by
          rw [hw] at hvar2
          injection hvar2 with he
          exact he.symm
        subst hvw
        split at h
        · obtain ⟨Δ, hΔ, hiff⟩ := runAc_char csp hnd hsym hwf
            (backtrack csp mcv ac3 n) ih n var hwvars (st.domains var) a
            { st with num_operations := st.num_operations + 1 } st'
            hg hwmem (fun x hx => hx) hd hsol h
          refine ⟨Δ, hΔ, ?_⟩
          intro sol
          rw [hiff sol]
          exact hpick sol
        · next hac3 =>
          have hac3f : ac3 = false := by
            rwa [Bool.not_eq_true] at hac3
          rw [hac3f] at h
          obtain ⟨Δ, hΔ, hiff⟩ := runNoAc_char csp hnd hsym hwf
            (backtrack csp mcv false n)
            (fun a2 st2 st2' hg2 hd2 hs2 hh =>
              ih a2 st2 st2' hg2 hd2 hs2 (by rw [hac3f]; exact hh))
            (backtrack_noac_domains csp mcv n) var hwvars (st.domains var) a
            { st with num_operations := st.num_operations + 1 }
            st' hg hwmem (fun x hx => hd var x hx) hd hsol h
          refine ⟨Δ, hΔ, ?_⟩
          intro sol
          rw [hiff sol]
          exact hpick sol

/-- C2 (amended): for every CSP satisfying the data model's expectations
(distinct declared variables; binary factors registered symmetrically
between distinct declared variables), every run of `solve` that returns
normally records exactly the semantic solution set, for every combination
of the two flags — so any two normally-returning runs record the same set.
The equality over all four flag combinations as originally stated fails
only because a run with `ac3 = True` can instead abort with an unhandled
exception (see the counterexample). -/
theorem c2_solution_set_invariance (csp : CSP) (hnd : csp.vars.Nodup)
    (hsym : SymmFactors csp) (hwf : WFFactors csp)
    (mcv1 ac31 mcv2 ac32 : Bool) (f1 f2 : Nat) (st1 st2 : SState)
    (h1 : solve csp mcv1 ac31 f1 = .ok st1)
    (h2 : solve csp mcv2 ac32 f2 = .ok st2) :
    (∀ sol, sol ∈ st1.all_assignments ↔ isSol csp sol) ∧
    (∀ sol, sol ∈ st1.all_assignments ↔ sol ∈ st2.all_assignments) := by
  have hchar : ∀ (mcv ac3 : Bool) (f : Nat) (stx : SState),
      solve csp mcv ac3 f = .ok stx →
      ∀ sol, sol ∈ stx.all_assignments ↔ isSol csp sol := by
    intro mcv ac3 f stx hx sol
    have hg : GoodA csp ([] : Assign) := by
      refine ⟨by simp, by simp, by simp, by simp, by simp⟩
    have hd : DomsSub csp (initState csp).domains := fun v x hx2 => hx2
    have hsolin : SolsIn csp [] (initState csp).domains :=
      fun sol2 hi _ p hp => (hi.2 p hp).1
    obtain ⟨Δ, hΔ, hiff⟩ := backtrack_char csp hnd hsym hwf mcv ac3 f []
      (initState csp) stx hg hd hsolin hx
    rw [hΔ]
    show sol ∈ Δ ↔ isSol csp sol
    rw [hiff sol]
    constructor
    · rintro ⟨hi, _⟩
      exact hi
    · intro hi
      exact ⟨hi, fun p hp => by cases hp⟩
  refine ⟨hchar mcv1 ac31 f1 st1 h1, ?_⟩
  intro sol
  rw [hchar mcv1 ac31 f1 st1 h1 sol, hchar mcv2 ac32 f2 st2 h2 sol]

/-- Shared helper: the concrete CSP `csp2` registers its factors
symmetrically. -/
theorem csp2_symm : SymmFactors csp2 := by
  intro v1 v2 q hq hq1
  have hiff : ∀ x y : Val, neqFactor x y = 0 ↔ neqFactor y x = 0 := by
    intro x y
    simp only [neqFactor]
    by_cases hxy : x = y
    · simp [hxy]
    · rw [if_neg hxy, if_neg (fun h => hxy h.symm)]
  by_cases h2 : v2 = 0
  · subst h2
    have hq2 : q = (1, neqFactor) := by simpa [csp2] using hq
    have hv1 : v1 = 1 := by
      rw [← hq1, hq2]
    subst hv1
    exact ⟨(0, neqFactor), by simp [csp2], rfl, by
      intro x y
      rw [hq2]
      exact hiff x y⟩
  · by_cases h3 : v2 = 1
    · subst h3
      have hq2 : q = (0, neqFactor) := by simpa [csp2, h2] using hq
      have hv1 : v1 = 0 := by
        rw [← hq1, hq2]
      subst hv1
      exact ⟨(1, neqFactor), by simp [csp2], rfl, by
        intro x y
        rw [hq2]
        exact hiff x y⟩
    · have : q ∈ ([] : List (Var × (Val → Val → Nat))) := by
        simpa [csp2, h2, h3] using hq
      cases this

/-- Shared helper: the concrete CSP `csp2` has well-formed factor dicts. -/
theorem csp2_wf : WFFactors csp2 := by
  intro v q hq
  by_cases h0 : v = 0
  · subst h0
    have hq2 : q = (1, neqFactor) := by simpa [csp2] using hq
    rw [hq2]
    exact ⟨by simp [csp2], by decide⟩
  · by_cases h1 : v = 1
    · subst h1
      have hq2 : q = (0, neqFactor) := by simpa [csp2, h0] using hq
      rw [hq2]
      exact ⟨by simp [csp2], by decide⟩
    · have : q ∈ ([] : List (Var × (Val → Val → Nat))) := by
        simpa [csp2, h0, h1] using hq
      cases this

/-- Witness for C2 at a concrete input: both extreme flag combinations on
`csp2` record the solution binding both variables differently. -/
theorem c2_witness :
    (solve csp2 false false 10).map
      (fun st => decide (([((0 : Var), (0 : Val)), (1, 1)] : Assign) ∈
        st.all_assignments)) = .ok true ∧
    (solve csp2 true true 10).map
      (fun st => decide (([((0 : Var), (0 : Val)), (1, 1)] : Assign) ∈
        st.all_assignments)) = .ok true := by
  rcases hr1 : solve csp2 false false 10 with e1 | s1
  · have hok : (solve csp2 false false 10).map (fun _ => true) = .ok true := rfl
    rw [hr1] at hok
    simp [Except.map] at hok
  rcases hr2 : solve csp2 true true 10 with e2 | s2
  · have hok : (solve csp2 true true 10).map (fun _ => true) = .ok true := rfl
    rw [hr2] at hok
    simp [Except.map] at hok
  have hc := c2_solution_set_invariance csp2 (by decide) csp2_symm csp2_wf
    false false true true 10 10 s1 s2 hr1 hr2
  have hall1 : s1.all_assignments = [[(0, 0), (1, 1)], [(0, 1), (1, 0)]] := by
    have h3 : (solve csp2 false false 10).map (fun st => st.all_assignments) =
      .ok [[(0, 0), (1, 1)], [(0, 1), (1, 0)]] := rfl
    rw [hr1] at h3
    simpa [Except.map] using h3
  have hmem1 : ([((0 : Var), (0 : Val)), (1, 1)] : Assign) ∈ s1.all_assignments := by
    rw [hall1]
    simp
  constructor
  · simp only [Except.map]
    exact congrArg Except.ok (decide_eq_true hmem1)
  · have hmem2 := (hc.2 ([((0 : Var), (0 : Val)), (1, 1)] : Assign)).mp hmem1
    simp only [Except.map]
    exact congrArg Except.ok (decide_eq_true hmem2)

/-- Counterexample for C2 as stated: on the one-variable CSP `cspOne`
(domain `[5]`, no factors) the run without propagation records the single
solution, while the run with `ac3 = True` aborts with `NameError` and
records nothing, so the recorded set is not the same for all four flag
combinations. -/
theorem c2_counterexample :
    (solve cspOne false false 5).map (fun st => st.all_assignments) =
      .ok [[(0, 5)]] ∧
    solve cspOne false true 5 = .error .nameError :=
  ⟨rfl, rfl⟩

end CSPSolver
